import Mathlib

/-!
# Verification of the post-generation hook of `pythonic-template`

This file gives a shallow embedding, in Lean 4, of the logic of
`hooks/post_gen_project.py` (and of `scripts/lib/python_versions.py`) of the
`pythonic-template` repository, together with theorems settling the frozen
claims about that logic.

Modelling conventions:
* Python strings are modelled as `String` / `List Char`; Python string
  operations (`str.strip`, `str.replace`, `str.split`, f-strings, regular
  expressions restricted to the concrete patterns used by the hook) are
  re-implemented as executable Lean functions on `List Char`.
* `\d` of the Python regexes is modelled as an ASCII digit.  This is
  immaterial for every claim: the rendered outputs (`f"{major}.{minor}"`
  etc.) are ASCII regardless of the input digits.
* The outcomes of external commands (environment variables, `git`,
  `uv`, `pyenv`, the endoflife.date API, filesystem probes, file writes) are
  modelled as explicit environment records, so a theorem quantified over the
  environment covers every possible outcome of the external world.
* Fallible Python code is modelled with `Option` / `Except`; an uncaught
  Python exception is an `Except.error` / an `exc` field distinct from
  `none`.  All Lean definitions are total, so "never raises" claims become
  claims about the absence of error values.
-/

/-! ## Decimal rendering of naturals and integers

Models Python `str(n)` / f-string formatting of an `int`. -/

/-- One decimal digit character, for `d < 10` (`str` rendering of a digit). -/
def digChar (d : Nat) : Char :=
  match d with
  | 0 => '0' | 1 => '1' | 2 => '2' | 3 => '3' | 4 => '4'
  | 5 => '5' | 6 => '6' | 7 => '7' | 8 => '8' | _ => '9'

/-- ASCII digit test (the `\d` character class of the hook's regexes). -/
def isDig (c : Char) : Bool := 48 ≤ c.toNat && c.toNat ≤ 57

/-- Fuel-driven big-endian digit rendering of `n` (fuel ≥ number of digits). -/
def natCharsAux : Nat → Nat → List Char
  | 0, _ => []
  | fuel + 1, n => if n = 0 then [] else natCharsAux fuel (n / 10) ++ [digChar (n % 10)]

/-- Decimal rendering of a natural number, as Python `str(n)` produces it. -/
def natChars (n : Nat) : List Char :=
  if n = 0 then ['0'] else natCharsAux (n + 1) n

/-- Decimal rendering of an integer (Python `str` of a possibly negative int). -/
def intChars (i : Int) : List Char :=
  if i < 0 then '-' :: natChars i.natAbs else natChars i.toNat

/-- `String` form of `natChars`. -/
def natStr (n : Nat) : String := String.mk (natChars n)

/-- Decimal value of a digit-character list (models `int(s)` on an all-digit
string, used to invert the renderings above). -/
def chars2Nat (l : List Char) : Nat := l.foldl (fun a c => a * 10 + (c.toNat - 48)) 0

theorem digChar_isDig (d : Nat) (h : d < 10) : isDig (digChar d) = true := by
  interval_cases d <;> decide

theorem natCharsAux_all_dig (fuel n : Nat) : ∀ c ∈ natCharsAux fuel n, isDig c = true := by
  induction fuel generalizing n with
  | zero => intro c hc; simp [natCharsAux] at hc
  | succ fuel ih =>
    intro c hc
    by_cases h0 : n = 0
    · simp [natCharsAux, h0] at hc
    · simp only [natCharsAux, if_neg h0, List.mem_append, List.mem_singleton] at hc
      rcases hc with hc | hc
      · exact ih (n / 10) c hc
      · subst hc; exact digChar_isDig _ (Nat.mod_lt _ (by norm_num))

theorem natChars_all_dig (n : Nat) : ∀ c ∈ natChars n, isDig c = true := by
  unfold natChars
  by_cases h0 : n = 0
  · simp [h0]; decide
  · simp only [if_neg h0]
    exact natCharsAux_all_dig _ _

theorem natCharsAux_ne_nil (fuel n : Nat) (h0 : n ≠ 0) :
    natCharsAux (fuel + 1) n ≠ [] := by
  simp only [natCharsAux, if_neg h0]
  intro h
  exact absurd (List.append_eq_nil.mp h).2 (by simp)

theorem natChars_ne_nil (n : Nat) : natChars n ≠ [] := by
  unfold natChars
  by_cases h0 : n = 0
  · simp [h0]
  · simp only [if_neg h0]
    exact natCharsAux_ne_nil n n h0

theorem chars2Nat_append (l : List Char) (c : Char) :
    chars2Nat (l ++ [c]) = chars2Nat l * 10 + (c.toNat - 48) := by
  simp [chars2Nat, List.foldl_append]

theorem chars2Nat_natCharsAux (fuel n : Nat) (hf : n ≤ fuel) :
    chars2Nat (natCharsAux (fuel + 1) n) = n := by
  induction fuel generalizing n with
  | zero =>
    interval_cases n
    · simp [natCharsAux, chars2Nat]
  | succ fuel ih =>
    by_cases h0 : n = 0
    · simp [natCharsAux, h0, chars2Nat]
    · have hstep : natCharsAux (fuel + 1 + 1) n =
          natCharsAux (fuel + 1) (n / 10) ++ [digChar (n % 10)] := by
        simp [natCharsAux, if_neg h0]
      rw [hstep, chars2Nat_append]
      have hdiv : n / 10 ≤ fuel := by
        have h1 : n / 10 < n := Nat.div_lt_self (Nat.pos_of_ne_zero h0) (by norm_num)
        omega
      rw [ih (n / 10) hdiv]
      have hm : n % 10 < 10 := Nat.mod_lt _ (by norm_num)
      have hd : (digChar (n % 10)).toNat - 48 = n % 10 := by
        interval_cases h : n % 10 <;> simp [h, digChar]
      rw [hd]
      omega

theorem chars2Nat_natChars (n : Nat) : chars2Nat (natChars n) = n := by
  unfold natChars
  by_cases h0 : n = 0
  · simp [h0, chars2Nat]
  · simp only [if_neg h0]
    exact chars2Nat_natCharsAux n n le_rfl

theorem natChars_injective : Function.Injective natChars := by
  intro a b h
  have := chars2Nat_natChars a
  rw [h, chars2Nat_natChars] at this
  omega

theorem isDig_toNat {c : Char} (h : isDig c = true) : 48 ≤ c.toNat ∧ c.toNat ≤ 57 := by
  simp [isDig] at h
  exact h

theorem dot_not_dig : isDig '.' = false := by decide

theorem dot_not_mem_natChars (n : Nat) : '.' ∉ natChars n := by
  intro h
  have := natChars_all_dig n _ h
  simp [isDig] at this

/-! ## Version-string parsing

Models `normalize_version` (regex `^\d+\.\d+\.\d+$` after `.strip()`), the
cycle regex `^\d+\.\d+$` of `discover_from_endoflife`, and the
`map(int, version.split("."))` parsing of `get_unique_minors`. -/

/-- ASCII whitespace, as stripped by Python `str.strip()`. -/
def isWsp (c : Char) : Bool :=
  c.toNat = 32 || c.toNat = 9 || c.toNat = 10 || c.toNat = 13 || c.toNat = 11 || c.toNat = 12

/-- Python `str.strip()` on a character list. -/
def trimL (l : List Char) : List Char :=
  ((l.dropWhile isWsp).reverse.dropWhile isWsp).reverse

/-- Longest digit run at the head of the list, and the remainder.
Models greedy `\d+` matching. -/
def takeDigits : List Char → List Char × List Char
  | [] => ([], [])
  | c :: r =>
    if isDig c then
      let p := takeDigits r
      (c :: p.1, p.2)
    else ([], c :: r)

/-- Parse `^\d+\.\d+\.\d+$` and the three `int` groups.  `some` exactly when
the Python regex of `normalize_version` matches. -/
def parseVerChars (l : List Char) : Option (Nat × Nat × Nat) :=
  match h1 : takeDigits l with
  | (d1, '.' :: r1) =>
    if d1 = [] then none else
    match h2 : takeDigits r1 with
    | (d2, '.' :: r2) =>
      if d2 = [] then none else
      match h3 : takeDigits r2 with
      | (d3, []) =>
        if d3 = [] then none else some (chars2Nat d1, chars2Nat d2, chars2Nat d3)
      | _ => none
    | _ => none
  | _ => none

/-- Parse `^\d+\.\d+$` and the two `int` groups (the `cycle` regex of
`discover_from_endoflife`). -/
def parseCycleChars (l : List Char) : Option (Nat × Nat) :=
  match h1 : takeDigits l with
  | (d1, '.' :: r1) =>
    if d1 = [] then none else
    match h2 : takeDigits r1 with
    | (d2, []) =>
      if d2 = [] then none else some (chars2Nat d1, chars2Nat d2)
    | _ => none
  | _ => none

/-- `normalize_version` of the hook (post_gen_project.py lines 50-55): strip,
then require `^\d+\.\d+\.\d+$`. -/
def normalize_version (s : String) : Option String :=
  if (parseVerChars (trimL s.data)).isSome then some (String.mk (trimL s.data)) else none

theorem takeDigits_all_digits (l : List Char) (h : ∀ c ∈ l, isDig c = true) :
    takeDigits l = (l, []) := by
  induction l with
  | nil => rfl
  | cons c r ih =>
    have hc : isDig c = true := h c (by simp)
    have hr := ih (fun x hx => h x (by simp [hx]))
    simp [takeDigits, hc, hr]

theorem takeDigits_append_stop (d : List Char) (x : Char) (r : List Char)
    (hd : ∀ c ∈ d, isDig c = true) (hx : isDig x = false) :
    takeDigits (d ++ x :: r) = (d, x :: r) := by
  induction d with
  | nil => simp [takeDigits, hx]
  | cons c dt ih =>
    have hc : isDig c = true := hd c (by simp)
    have hr := ih (fun y hy => hd y (by simp [hy]))
    simp [takeDigits, hc, hr]

theorem takeDigits_shape (l : List Char) :
    l = (takeDigits l).1 ++ (takeDigits l).2 ∧ ∀ c ∈ (takeDigits l).1, isDig c = true := by
  induction l with
  | nil => simp [takeDigits]
  | cons c r ih =>
    by_cases hc : isDig c
    · constructor
      · simp only [takeDigits, if_pos hc]
        exact congrArg (c :: ·) ih.1
      · intro x hx
        simp only [takeDigits, if_pos hc, List.mem_cons] at hx
        rcases hx with hx | hx
        · subst hx; exact hc
        · exact ih.2 x hx
    · simp [takeDigits, hc]

theorem parseVerChars_of_cycle (l : List Char) (a b : Nat)
    (h : parseCycleChars l = some (a, b)) :
    parseVerChars (l ++ ['.', '0']) = some (a, b, 0) := by
  unfold parseCycleChars at h
  split at h
  next d1 r1 h1 =>
    by_cases hd1 : d1 = []
    · simp [hd1] at h
    · rw [if_neg hd1] at h
      split at h
      next d2 h2 =>
        by_cases hd2 : d2 = []
        · simp [hd2] at h
        · rw [if_neg hd2] at h
          have hab : a = chars2Nat d1 ∧ b = chars2Nat d2 := by
            have hh := h
            simp only [Option.some.injEq, Prod.mk.injEq] at hh
            exact ⟨hh.1.symm, hh.2.symm⟩
          have hs1 := takeDigits_shape l
          rw [h1] at hs1
          have hs2 := takeDigits_shape r1
          rw [h2] at hs2
          have hr1 : r1 = d2 := by simpa using hs2.1
          have hl : l = d1 ++ '.' :: d2 := by
            rw [← hr1]; simpa using hs1.1
          have hd1dig : ∀ c ∈ d1, isDig c = true := by simpa using hs1.2
          have hd2dig : ∀ c ∈ d2, isDig c = true := by simpa using hs2.2
          have key1 : takeDigits (l ++ ['.', '0']) = (d1, '.' :: (d2 ++ ['.', '0'])) := by
            rw [hl]
            have : d1 ++ '.' :: d2 ++ ['.', '0'] = d1 ++ '.' :: (d2 ++ ['.', '0']) := by
              simp
            rw [this]
            exact takeDigits_append_stop d1 '.' (d2 ++ ['.', '0']) hd1dig (by decide)
          have key2 : takeDigits (d2 ++ ['.', '0']) = (d2, '.' :: ['0']) := by
            have : d2 ++ ['.', '0'] = d2 ++ '.' :: ['0'] := by simp
            rw [this]
            exact takeDigits_append_stop d2 '.' ['0'] hd2dig (by decide)
          unfold parseVerChars
          rw [key1]
          simp only [if_neg hd1]
          rw [key2]
          simp only [if_neg hd2]
          have key3 : takeDigits ['0'] = (['0'], []) := by decide
          rw [key3]
          simp only [if_neg (by simp : ¬ (['0'] : List Char) = [])]
          rw [hab.1, hab.2]
          rfl
      next => exact absurd h (by simp)
  next => exact absurd h (by simp)

/-! ## `get_unique_minors` (post_gen_project.py lines 58-67)

The Python dict `best_versions` is keyed by the string `f"{major}.{minor}"`
and re-parsed for sorting; those key strings are in bijection with the pairs
`(major, minor)` (`renderKey` below, injective), so the dict is modelled as an
association list keyed by the pair, with the rendering applied at the end. -/

/-- The key string `f"{major}.{minor}"`. -/
def renderKey (p : Nat × Nat) : String :=
  String.mk (natChars p.1 ++ '.' :: natChars p.2)

/-- The sort order of the keys: `key=lambda x: tuple(map(int, x.split(".")))`,
i.e. lexicographic on `(major, minor)`. -/
def keyLE (p q : Nat × Nat) : Prop := p.1 < q.1 ∨ (p.1 = q.1 ∧ p.2 ≤ q.2)

/-- Strict version of `keyLE` (ascending with no duplicates). -/
def keyLT (p q : Nat × Nat) : Prop := p.1 < q.1 ∨ (p.1 = q.1 ∧ p.2 < q.2)

instance : DecidableRel keyLE := fun p q =>
  inferInstanceAs (Decidable (p.1 < q.1 ∨ (p.1 = q.1 ∧ p.2 ≤ q.2)))

instance : IsTotal (Nat × Nat) keyLE := ⟨by intro a b; unfold keyLE; omega⟩

instance : IsTrans (Nat × Nat) keyLE := ⟨by intro a b c; unfold keyLE; omega⟩

/-- Python tuple comparison `(major, minor, patch) > best_versions[key]`. -/
def tripleGt (a b : Nat × Nat × Nat) : Bool :=
  decide (b.1 < a.1 ∨ (a.1 = b.1 ∧ (b.2.1 < a.2.1 ∨ (a.2.1 = b.2.1 ∧ b.2.2 < a.2.2))))

/-- One `best_versions[key] = ...` update: replace the value in place when the
key is present and the new triple is larger, append the key otherwise
(Python dicts keep insertion order). -/
def updBest : List ((Nat × Nat) × (Nat × Nat × Nat)) → (Nat × Nat) → (Nat × Nat × Nat) →
    List ((Nat × Nat) × (Nat × Nat × Nat))
  | [], k, t => [(k, t)]
  | (k', t') :: bv, k, t =>
    if k' = k then (if tripleGt t t' then (k, t) :: bv else (k', t') :: bv)
    else (k', t') :: updBest bv k t

/-- The fold of the `for version in stable_versions` loop.  On a string that
does not parse, Python would raise `ValueError`; both call sites pass only
`normalize_version`-validated strings (or `f"{cycle}.0"` strings), for which
`verTriple` is `some`, so the `none` branch is unreachable there. -/
def bestFold (stable : List String) : List ((Nat × Nat) × (Nat × Nat × Nat)) :=
  stable.foldl
    (fun bv s =>
      match parseVerChars s.data with
      | some (mj, mn, pt) => updBest bv (mj, mn) (mj, mn, pt)
      | none => bv)
    []

/-- `get_unique_minors` (lines 58-67): collect the best patch per `(major,
minor)` key, then return the keys sorted by `(major, minor)`. -/
def get_unique_minors (stable : List String) : List String :=
  ((((bestFold stable).map Prod.fst).insertionSort keyLE).map renderKey)

theorem append_dot_inj :
    ∀ {l1 l2 r1 r2 : List Char}, l1 ++ '.' :: r1 = l2 ++ '.' :: r2 →
      '.' ∉ l1 → '.' ∉ l2 → l1 = l2 ∧ r1 = r2 := by
  intro l1
  induction l1 with
  | nil =>
    intro l2 r1 r2 h _ h2
    cases l2 with
    | nil => simpa using h
    | cons c l2t =>
      simp only [List.nil_append, List.cons_append, List.cons.injEq] at h
      exact absurd (h.1 ▸ List.mem_cons_self c l2t) h2
  | cons c l1t ih =>
    intro l2 r1 r2 h h1 h2
    cases l2 with
    | nil =>
      simp only [List.nil_append, List.cons_append, List.cons.injEq] at h
      exact absurd (h.1 ▸ List.mem_cons_self c l1t) h1
    | cons c2 l2t =>
      simp only [List.cons_append, List.cons.injEq] at h
      have := ih h.2 (fun hm => h1 (List.mem_cons_of_mem c hm))
        (fun hm => h2 (List.mem_cons_of_mem c2 hm))
      exact ⟨by rw [h.1, this.1], this.2⟩

theorem renderKey_injective : Function.Injective renderKey := by
  intro p q h
  unfold renderKey at h
  have hd : natChars p.1 ++ '.' :: natChars p.2 = natChars q.1 ++ '.' :: natChars q.2 := by
    have := congrArg String.data h
    simpa using this
  have := append_dot_inj hd (dot_not_mem_natChars p.1) (dot_not_mem_natChars q.1)
  have h1 := natChars_injective this.1
  have h2 := natChars_injective this.2
  exact Prod.ext h1 h2

theorem pairwise_combine {α : Type} {R S T : α → α → Prop}
    (h : ∀ a b, R a b → S a b → T a b) :
    ∀ {l : List α}, l.Pairwise R → l.Pairwise S → l.Pairwise T := by
  intro l h1 h2
  induction l with
  | nil => exact List.Pairwise.nil
  | cons a l ih =>
    rcases List.pairwise_cons.mp h1 with ⟨ha1, ht1⟩
    rcases List.pairwise_cons.mp h2 with ⟨ha2, ht2⟩
    exact List.pairwise_cons.mpr ⟨fun b hb => h a b (ha1 b hb) (ha2 b hb), ih ht1 ht2⟩

theorem updBest_ne_nil (bv : List ((Nat × Nat) × (Nat × Nat × Nat))) (k : Nat × Nat)
    (t : Nat × Nat × Nat) : updBest bv k t ≠ [] := by
  cases bv with
  | nil => simp [updBest]
  | cons p bv =>
    obtain ⟨k', t'⟩ := p
    unfold updBest
    split <;> [skip; simp]
    split <;> simp

theorem updBest_keys (bv : List ((Nat × Nat) × (Nat × Nat × Nat))) (k : Nat × Nat)
    (t : Nat × Nat × Nat) :
    (updBest bv k t).map Prod.fst =
      if k ∈ bv.map Prod.fst then bv.map Prod.fst else bv.map Prod.fst ++ [k] := by
  induction bv with
  | nil => simp [updBest]
  | cons p bv ih =>
    obtain ⟨k', t'⟩ := p
    unfold updBest
    by_cases hk : k' = k
    · subst hk
      rw [if_pos rfl]
      split <;> simp
    · rw [if_neg hk]
      by_cases hmem : k ∈ bv.map Prod.fst
      · simp [hmem, ih, Ne.symm hk]
      · simp only [List.map_cons, List.mem_cons]
        rw [if_neg (by simp [hmem, Ne.symm hk])]
        simp [ih, hmem]

theorem bestFold_keys_nodup (stable : List String) :
    ((bestFold stable).map Prod.fst).Nodup := by
  unfold bestFold
  suffices h : ∀ (bv : List ((Nat × Nat) × (Nat × Nat × Nat))),
      (bv.map Prod.fst).Nodup →
      ((stable.foldl
        (fun bv s =>
          match parseVerChars s.data with
          | some (mj, mn, pt) => updBest bv (mj, mn) (mj, mn, pt)
          | none => bv) bv).map Prod.fst).Nodup by
    exact h [] (by simp)
  induction stable with
  | nil => intro bv hbv; simpa using hbv
  | cons s rest ih =>
    intro bv hbv
    simp only [List.foldl_cons]
    apply ih
    match hp : parseVerChars s.data with
    | some (mj, mn, pt) =>
      simp only
      rw [updBest_keys]
      split
      · exact hbv
      next hmem => exact List.Nodup.append hbv (by simp) (by simpa using hmem)
    | none => simpa using hbv

theorem bestFold_ne_nil (stable : List String)
    (hv : ∀ s ∈ stable, (parseVerChars s.data).isSome) (hne : stable ≠ []) :
    bestFold stable ≠ [] := by
  unfold bestFold
  have step : ∀ (bv : List ((Nat × Nat) × (Nat × Nat × Nat))) (rest : List String),
      bv ≠ [] →
      (rest.foldl
        (fun bv s =>
          match parseVerChars s.data with
          | some (mj, mn, pt) => updBest bv (mj, mn) (mj, mn, pt)
          | none => bv) bv) ≠ [] := by
    intro bv rest
    induction rest generalizing bv with
    | nil => intro h; simpa using h
    | cons s rest ih =>
      intro h
      simp only [List.foldl_cons]
      apply ih
      match hp : parseVerChars s.data with
      | some (mj, mn, pt) => exact updBest_ne_nil _ _ _
      | none => simpa using h
  cases stable with
  | nil => exact absurd rfl hne
  | cons s rest =>
    simp only [List.foldl_cons]
    apply step
    have := hv s (by simp)
    match hp : parseVerChars s.data with
    | some (mj, mn, pt) => exact updBest_ne_nil _ _ _
    | none => rw [hp] at this; simp at this

/-- `get_unique_minors` returns the rendering of a strictly ascending,
duplicate-free list of `(major, minor)` pairs; nonempty when the input is a
nonempty list of valid `X.Y.Z` strings. -/
theorem get_unique_minors_good (stable : List String)
    (hv : ∀ s ∈ stable, (parseVerChars s.data).isSome) (hne : stable ≠ []) :
    ∃ ps : List (Nat × Nat), get_unique_minors stable = ps.map renderKey ∧
      ps.Chain' keyLT ∧ ps ≠ [] := by
  refine ⟨((bestFold stable).map Prod.fst).insertionSort keyLE, rfl, ?_, ?_⟩
  · have hsorted : List.Sorted keyLE (((bestFold stable).map Prod.fst).insertionSort keyLE) :=
      List.sorted_insertionSort keyLE _
    have hnodup : (((bestFold stable).map Prod.fst).insertionSort keyLE).Nodup :=
      (List.perm_insertionSort keyLE _).symm.nodup (bestFold_keys_nodup stable)
    have hpw : (((bestFold stable).map Prod.fst).insertionSort keyLE).Pairwise keyLT :=
      pairwise_combine (fun a b hle hne => by
        unfold keyLE at hle; unfold keyLT
        have hnc : ¬ (a.1 = b.1 ∧ a.2 = b.2) := by
          intro hab
          exact hne (Prod.ext hab.1 hab.2)
        omega) hsorted hnodup
    exact hpw.chain'
  · intro h
    have hlen := (List.perm_insertionSort keyLE ((bestFold stable).map Prod.fst)).length_eq
    rw [h] at hlen
    simp only [List.length_nil] at hlen
    have := bestFold_ne_nil stable hv hne
    cases hbf : bestFold stable with
    | nil => exact this hbf
    | cons a l => rw [hbf] at hlen; simp at hlen

instance : DecidableRel keyLT := fun p q =>
  inferInstanceAs (Decidable (p.1 < q.1 ∨ (p.1 = q.1 ∧ p.2 < q.2)))

instance : IsTrans (Nat × Nat) keyLT := ⟨by intro a b c; unfold keyLT; omega⟩

/-! ## The version-discovery chain (post_gen_project.py lines 80-165)

Each external source is an environment field:
* `uv`: `none` when the `uv` command fails or its JSON does not parse,
  otherwise the parsed list of entries (an entry that is not an object would
  raise inside `discover_from_uv`; the driver loop of
  `discover_python_versions` catches every exception and moves on, which is
  the same observable behaviour as a failed source).
* `pyenvLines`: `none` when `pyenv install -l` fails or prints only
  whitespace, otherwise `output.splitlines()`.
* `eol`: `none` when the HTTPS call or its JSON fails, otherwise the parsed
  entries. -/

structure UvEntry where
  implementation : String
  version : String

structure EolEntry where
  latest : String
  cycle : String

structure DiscoverEnv where
  uv : Option (List UvEntry)
  pyenvLines : Option (List String)
  eol : Option (List EolEntry)

/-- `return get_unique_minors(stable_versions) if stable_versions else None`
(shared tail of all three `discover_from_*` functions). -/
def minorsOrNone (stable : List String) : Option (List String) :=
  if stable.isEmpty then none else some (get_unique_minors stable)

/-- `discover_from_uv` (lines 80-98): keep cpython entries whose version
normalizes. -/
def discover_from_uv (env : DiscoverEnv) : Option (List String) :=
  match env.uv with
  | none => none
  | some data =>
    minorsOrNone (data.filterMap
      (fun e => if e.implementation = "cpython" then normalize_version e.version else none))

/-- `discover_from_pyenv` (lines 101-113): normalize each stripped line. -/
def discover_from_pyenv (env : DiscoverEnv) : Option (List String) :=
  match env.pyenvLines with
  | none => none
  | some lines =>
    minorsOrNone (lines.filterMap (fun l => normalize_version (String.mk (trimL l.data))))

/-- `discover_from_endoflife` (lines 116-141): `latest` if it normalizes,
else `f"{cycle}.0"` when `cycle` matches `^\d+\.\d+$`. -/
def discover_from_endoflife (env : DiscoverEnv) : Option (List String) :=
  match env.eol with
  | none => none
  | some entries =>
    minorsOrNone (entries.filterMap
      (fun e =>
        match normalize_version e.latest with
        | some v => some v
        | none =>
          match parseCycleChars e.cycle.data with
          | some _ => some (String.mk (e.cycle.data ++ ['.', '0']))
          | none => none))

/-- `if versions: return versions` of the driver loop: take the result when
truthy, else continue with the rest of the chain. -/
def tryVersions (r : Option (List String)) (k : List String) : List String :=
  match r with
  | some v => if v.isEmpty then k else v
  | none => k

/-- The hard-coded fallback list (line 163). -/
def pyFallback : List String := ["3.12", "3.13", "3.14"]

/-- `discover_python_versions` (lines 144-165): the three sources in order,
then the fallback.  Each per-source `try`/`except` is subsumed by the
environment (a raising source is a `none` source). -/
def discover_python_versions (env : DiscoverEnv) : List String :=
  tryVersions (discover_from_uv env)
    (tryVersions (discover_from_pyenv env)
      (tryVersions (discover_from_endoflife env) pyFallback))

/-- The shape every claim cares about: a rendering of a strictly ascending
duplicate-free list of `(major, minor)` pairs. -/
def GoodVers (l : List String) : Prop :=
  ∃ ps : List (Nat × Nat), l = ps.map renderKey ∧ ps.Chain' keyLT ∧ ps ≠ []

theorem normalize_version_valid {s t : String} (h : normalize_version s = some t) :
    (parseVerChars t.data).isSome := by
  unfold normalize_version at h
  split at h
  next hp => cases h; exact hp
  next => cases h


theorem minorsOrNone_good {stable l : List String}
    (hv : ∀ s ∈ stable, (parseVerChars s.data).isSome)
    (h : minorsOrNone stable = some l) : GoodVers l := by
  unfold minorsOrNone at h
  split at h
  next => cases h
  next hne =>
    cases h
    have hne' : stable ≠ [] := by
      intro hx
      rw [hx] at hne
      simp at hne
    obtain ⟨ps, hps, hch, hpne⟩ := get_unique_minors_good stable hv hne'
    exact ⟨ps, hps, hch, hpne⟩

theorem discover_from_uv_good {env : DiscoverEnv} {l : List String}
    (h : discover_from_uv env = some l) : GoodVers l := by
  unfold discover_from_uv at h
  split at h
  next => cases h
  next data =>
    refine minorsOrNone_good ?_ h
    intro s hs
    rw [List.mem_filterMap] at hs
    obtain ⟨e, _, he⟩ := hs
    split at he
    · exact normalize_version_valid he
    · cases he

theorem discover_from_pyenv_good {env : DiscoverEnv} {l : List String}
    (h : discover_from_pyenv env = some l) : GoodVers l := by
  unfold discover_from_pyenv at h
  split at h
  next => cases h
  next lines =>
    refine minorsOrNone_good ?_ h
    intro s hs
    rw [List.mem_filterMap] at hs
    obtain ⟨e, _, he⟩ := hs
    exact normalize_version_valid he

theorem discover_from_endoflife_good {env : DiscoverEnv} {l : List String}
    (h : discover_from_endoflife env = some l) : GoodVers l := by
  unfold discover_from_endoflife at h
  split at h
  next => cases h
  next entries =>
    refine minorsOrNone_good ?_ h
    intro s hs
    rw [List.mem_filterMap] at hs
    obtain ⟨e, _, he⟩ := hs
    split at he
    next hv => cases he; exact normalize_version_valid hv
    next =>
      split at he
      next p hc =>
        cases he
        obtain ⟨a, b⟩ := p
        simpa using congrArg Option.isSome (parseVerChars_of_cycle e.cycle.data a b hc)
      next => cases he

theorem goodVers_ne_nil {l : List String} (h : GoodVers l) : l ≠ [] := by
  obtain ⟨ps, hps, _, hpne⟩ := h
  rw [hps]
  simpa using hpne

theorem goodVers_nodup {l : List String} (h : GoodVers l) : l.Nodup := by
  obtain ⟨ps, hps, hch, _⟩ := h
  rw [hps]
  refine List.Nodup.map renderKey_injective ?_
  have hpw : ps.Pairwise keyLT := List.chain'_iff_pairwise.mp hch
  exact hpw.imp (fun hab => by unfold keyLT at hab; intro he; rw [he] at hab; omega)

theorem goodVers_fallback : GoodVers pyFallback := by
  refine ⟨[(3, 12), (3, 13), (3, 14)], by decide, ?_, by decide⟩
  simp only [List.chain'_cons, List.chain'_singleton, and_true]
  refine ⟨?_, ?_⟩ <;> (unfold keyLT; omega)

theorem tryVersions_none (k : List String) : tryVersions none k = k := rfl

theorem tryVersions_some_ne {l : List String} (k : List String) (h : l ≠ []) :
    tryVersions (some l) k = l := by
  cases l with
  | nil => exact absurd rfl h
  | cons a t => rfl

theorem tryVersions_some_nil (k : List String) : tryVersions (some []) k = k := rfl

/-- The result of the discovery chain always has the good shape. -/
theorem discover_python_versions_good (env : DiscoverEnv) :
    GoodVers (discover_python_versions env) := by
  unfold discover_python_versions
  cases huv : discover_from_uv env with
  | some l =>
    have hg := discover_from_uv_good huv
    rw [tryVersions_some_ne _ (goodVers_ne_nil hg)]
    exact hg
  | none =>
    rw [tryVersions_none]
    cases hpe : discover_from_pyenv env with
    | some l =>
      have hg := discover_from_pyenv_good hpe
      rw [tryVersions_some_ne _ (goodVers_ne_nil hg)]
      exact hg
    | none =>
      rw [tryVersions_none]
      cases heo : discover_from_endoflife env with
      | some l =>
        have hg := discover_from_endoflife_good heo
        rw [tryVersions_some_ne _ (goodVers_ne_nil hg)]
        exact hg
      | none =>
        rw [tryVersions_none]
        exact goodVers_fallback

/-- **C3.** For every outcome of the three external version sources,
`discover_python_versions` returns a non-empty list of strings, each of the
form `"X.Y"` (the rendering of a `(major, minor)` pair), strictly ascending
in `(major, minor)` and duplicate-free; when every source fails it returns
the fixed default `["3.12", "3.13", "3.14"]`.  (That the function never
raises is the totality of the Lean function: every exception path of the
Python code is modelled as a failed source.) -/
theorem discover_python_versions_spec (env : DiscoverEnv) :
    discover_python_versions env ≠ [] ∧
    (∃ ps : List (Nat × Nat), discover_python_versions env = ps.map renderKey ∧
      ps.Chain' keyLT) ∧
    (discover_python_versions env).Nodup ∧
    ((discover_from_uv env = none ∧ discover_from_pyenv env = none ∧
        discover_from_endoflife env = none) →
      discover_python_versions env = ["3.12", "3.13", "3.14"]) := by
  have hgood : GoodVers (discover_python_versions env) := discover_python_versions_good env
  refine ⟨goodVers_ne_nil hgood, ?_, goodVers_nodup hgood, ?_⟩
  · obtain ⟨ps, h1, h2, _⟩ := hgood
    exact ⟨ps, h1, h2⟩
  · rintro ⟨h1, h2, h3⟩
    unfold discover_python_versions
    rw [h1, h2, h3, tryVersions_none, tryVersions_none, tryVersions_none]
    rfl

/-- Witness for **C3**: with all three sources failed, the default list is
returned. -/
theorem discover_python_versions_spec_witness :
    discover_python_versions ⟨none, none, none⟩ = ["3.12", "3.13", "3.14"] :=
  (discover_python_versions_spec ⟨none, none, none⟩).2.2.2 ⟨rfl, rfl, rfl⟩

/-- **C4.** The three sources are consulted in the fixed order `uv`, `pyenv`,
endoflife.date; the first one that yields a non-empty list wins, a later
source is consulted only when every earlier one failed (`none`) or yielded
nothing, and the hard-coded default is used only when all three fail. -/
theorem discover_order_spec (env : DiscoverEnv) :
    (∀ v, discover_from_uv env = some v → v ≠ [] → discover_python_versions env = v) ∧
    ((discover_from_uv env = none ∨ discover_from_uv env = some []) →
      ∀ v, discover_from_pyenv env = some v → v ≠ [] →
        discover_python_versions env = v) ∧
    ((discover_from_uv env = none ∨ discover_from_uv env = some []) →
      (discover_from_pyenv env = none ∨ discover_from_pyenv env = some []) →
      ∀ v, discover_from_endoflife env = some v → v ≠ [] →
        discover_python_versions env = v) ∧
    ((discover_from_uv env = none ∨ discover_from_uv env = some []) →
      (discover_from_pyenv env = none ∨ discover_from_pyenv env = some []) →
      (discover_from_endoflife env = none ∨ discover_from_endoflife env = some []) →
      discover_python_versions env = ["3.12", "3.13", "3.14"]) := by
  refine ⟨?_, ?_, ?_, ?_⟩
  · intro v hv hne
    unfold discover_python_versions
    rw [hv, tryVersions_some_ne _ hne]
  · rintro (h1 | h1) v hv hne <;>
      (unfold discover_python_versions; rw [h1, hv, tryVersions_some_ne _ hne])
    · rw [tryVersions_none]
    · rw [tryVersions_some_nil]
  · rintro (h1 | h1) (h2 | h2) v hv hne <;>
      unfold discover_python_versions <;>
      rw [h1, h2, hv, tryVersions_some_ne _ hne] <;>
      first
        | rw [tryVersions_none, tryVersions_none]
        | rw [tryVersions_none, tryVersions_some_nil]
        | rw [tryVersions_some_nil, tryVersions_none]
        | rw [tryVersions_some_nil, tryVersions_some_nil]
  · rintro (h1 | h1) (h2 | h2) (h3 | h3) <;>
      unfold discover_python_versions <;>
      rw [h1, h2, h3] <;> rfl

/-- Witness for **C4**: a successful first (`uv`) source short-circuits the
chain. -/
theorem discover_order_spec_witness :
    discover_python_versions ⟨some [⟨"cpython", "3.12.0"⟩], none, none⟩ = ["3.12"] :=
  (discover_order_spec ⟨some [⟨"cpython", "3.12.0"⟩], none, none⟩).1 ["3.12"]
    (by decide) (by decide)

/-! ## Python `str.replace` on character lists

`replaceAll p r t` replaces every non-overlapping occurrence of `p` in `t`
by `r`, scanning left to right — the semantics of Python `t.replace(p, r)`
for a non-empty pattern `p`.  The skip after a match is implemented with a
countdown so that the recursion is structural (and hence kernel-reducible). -/

/-- Bool test: is `p` an initial segment of `s`. -/
def isPre : List Char → List Char → Bool
  | [], _ => true
  | _ :: _, [] => false
  | a :: p, b :: t => a == b && isPre p t

/-- Structural worker: `k` is the number of already-matched characters still
to be skipped. -/
def replAux (p r : List Char) : List Char → Nat → List Char
  | [], _ => []
  | _ :: t, k + 1 => replAux p r t k
  | c :: t, 0 =>
    if !p.isEmpty && isPre p (c :: t) then
      r ++ replAux p r t (p.length - 1)
    else c :: replAux p r t 0

/-- Python `t.replace(p, r)` (for the non-empty patterns the hook uses). -/
def replaceAll (p r t : List Char) : List Char := replAux p r t 0

/-- `q` occurs somewhere in `s` (`q in s` for Python strings). -/
def occursIn (q s : List Char) : Prop := ∃ u v, s = u ++ q ++ v

/-- `q` is an initial segment of `s`. -/
def startsWithL (q s : List Char) : Prop := ∃ v, s = q ++ v

/-- `q` is a final segment of `s`. -/
def endsWithL (q s : List Char) : Prop := ∃ u, s = u ++ q

theorem isPre_iff (p s : List Char) : isPre p s = true ↔ startsWithL p s := by
  induction p generalizing s with
  | nil => simp [isPre, startsWithL]
  | cons a p ih =>
    cases s with
    | nil =>
      simp only [isPre, startsWithL]
      constructor
      · intro h; cases h
      · rintro ⟨v, hv⟩; cases hv
    | cons b t =>
      simp only [isPre, Bool.and_eq_true, beq_iff_eq, ih, startsWithL]
      constructor
      · rintro ⟨hab, v, hv⟩
        exact ⟨v, by rw [hab, List.cons_append, ← hv]⟩
      · rintro ⟨v, hv⟩
        simp only [List.cons_append, List.cons.injEq] at hv
        exact ⟨hv.1.symm, v, hv.2⟩

/-- The left-to-right chunk decomposition that `replaceAll` produces: the
result is the input with some non-overlapping occurrences of `p` replaced by
`r`, and a kept character is never the start of an occurrence of `p`. -/
inductive Chunks (p r : List Char) : List Char → List Char → Prop where
  | nil : Chunks p r [] []
  | keep (c : Char) {t res : List Char} (hnm : isPre p (c :: t) = false)
      (h : Chunks p r t res) : Chunks p r (c :: t) (c :: res)
  | repl {t res : List Char} (h : Chunks p r t res) : Chunks p r (p ++ t) (r ++ res)

theorem replAux_skip (p r : List Char) :
    ∀ (t : List Char) (k : Nat), k ≤ t.length → replAux p r t k = replAux p r (t.drop k) 0 := by
  intro t
  induction t with
  | nil =>
    intro k hk
    simp only [List.length_nil, Nat.le_zero] at hk
    subst hk
    rfl
  | cons c t ih =>
    intro k hk
    cases k with
    | zero => rfl
    | succ k =>
      have : replAux p r (c :: t) (k + 1) = replAux p r t k := rfl
      rw [this, ih k (by simpa using hk)]
      rfl

theorem replaceAll_chunks (p r : List Char) (hp : p ≠ []) (t : List Char) :
    Chunks p r t (replaceAll p r t) := by
  have main : ∀ (n : Nat) (t : List Char), t.length ≤ n → Chunks p r t (replaceAll p r t) := by
    intro n
    induction n with
    | zero =>
      intro t ht
      have : t = [] := by
        cases t with
        | nil => rfl
        | cons a b => simp at ht
      rw [this]
      exact Chunks.nil
    | succ n ih =>
      intro t ht
      cases t with
      | nil => exact Chunks.nil
      | cons c t =>
        by_cases hm : isPre p (c :: t) = true
        · obtain ⟨v, hv⟩ := (isPre_iff p (c :: t)).mp hm
          have hlenp : 1 ≤ p.length := by
            cases p with
            | nil => exact absurd rfl hp
            | cons a b => simp
          have hlen : (c :: t).length = p.length + v.length := by
            rw [hv]; simp
          have hstep : replaceAll p r (c :: t) = r ++ replaceAll p r v := by
            unfold replaceAll
            have h1 : replAux p r (c :: t) 0 = r ++ replAux p r t (p.length - 1) := by
              conv_lhs => rw [show replAux p r (c :: t) 0 =
                if !p.isEmpty && isPre p (c :: t) then r ++ replAux p r t (p.length - 1)
                else c :: replAux p r t 0 from rfl]
              rw [if_pos (by
                cases p with
                | nil => exact absurd rfl hp
                | cons a b => simp [hm])]
            rw [h1]
            have hk : p.length - 1 ≤ t.length := by
              simp only [List.length_cons] at hlen
              omega
            rw [replAux_skip p r t (p.length - 1) hk]
            have hdrop : t.drop (p.length - 1) = v := by
              have : (c :: t).drop p.length = v := by
                rw [hv, List.drop_left]
              rw [show (c :: t).drop p.length = t.drop (p.length - 1) from by
                cases hpl : p.length with
                | zero => omega
                | succ m => simp [hpl]] at this
              exact this
            rw [hdrop]
          rw [hstep, hv]
          exact Chunks.repl (ih v (by simp only [List.length_cons] at ht hlen; omega))
        · have hstep : replaceAll p r (c :: t) = c :: replaceAll p r t := by
            unfold replaceAll
            conv_lhs => rw [show replAux p r (c :: t) 0 =
              if !p.isEmpty && isPre p (c :: t) then r ++ replAux p r t (p.length - 1)
              else c :: replAux p r t 0 from rfl]
            rw [if_neg (by simp [hm])]
          rw [hstep]
          exact Chunks.keep c (by simpa using hm)
            (ih t (by simp only [List.length_cons] at ht; omega))
  exact main t.length t le_rfl

/-- Where does the split point of `u` fall relative to `x` in `x ++ y = u ++ z`? -/
theorem append_eq_append_split {x y u z : List Char} (h : x ++ y = u ++ z) :
    (∃ w, x = u ++ w ∧ w ++ y = z) ∨ (∃ w, u = x ++ w ∧ y = w ++ z) := by
  induction x generalizing u with
  | nil =>
    right
    exact ⟨u, rfl, h⟩
  | cons c xt ih =>
    cases u with
    | nil =>
      left
      exact ⟨c :: xt, rfl, h⟩
    | cons b ut =>
      simp only [List.cons_append, List.cons.injEq] at h
      rcases ih h.2 with ⟨w, hw1, hw2⟩ | ⟨w, hw1, hw2⟩
      · left
        refine ⟨w, ?_, hw2⟩
        rw [h.1, hw1]
        simp
      · right
        refine ⟨w, ?_, hw2⟩
        rw [← h.1, hw1]
        simp

/-- An occurrence of `q` in `x ++ y` lies in `x`, lies in `y`, or straddles
the boundary. -/
theorem occursIn_append {q x y : List Char} (h : occursIn q (x ++ y)) :
    occursIn q x ∨ occursIn q y ∨
      ∃ q1 q2, q = q1 ++ q2 ∧ q1 ≠ [] ∧ q2 ≠ [] ∧ endsWithL q1 x ∧ startsWithL q2 y := by
  obtain ⟨u, v, huv⟩ := h
  rw [List.append_assoc] at huv
  rcases append_eq_append_split huv with ⟨w, hw1, hw2⟩ | ⟨w, hw1, hw2⟩
  · -- x = u ++ w and w ++ y = q ++ v : split w against q
    rcases append_eq_append_split hw2 with ⟨w2, hv1, hv2⟩ | ⟨w2, hv1, hv2⟩
    · -- w = q ++ w2 : occurrence inside x
      left
      refine ⟨u, w2, ?_⟩
      rw [hw1, hv1]
      simp
    · -- q = w ++ w2 and y = w2 ++ v
      by_cases hwnil : w = []
      · right; left
        refine ⟨[], v, ?_⟩
        rw [hv2]
        have hq : q = w2 := by rw [hv1, hwnil]; simp
        rw [hq]
        simp
      · by_cases hw2nil : w2 = []
        · left
          refine ⟨u, [], ?_⟩
          have hq : q = w := by rw [hv1, hw2nil]; simp
          rw [hw1, hq]
          simp
        · right; right
          exact ⟨w, w2, hv1, hwnil, hw2nil, ⟨u, hw1⟩, ⟨v, hv2⟩⟩
  · -- u = x ++ w and y = w ++ (q ++ v) : occurrence inside y
    right; left
    refine ⟨w, v, ?_⟩
    rw [hw2]
    simp

/-- First character, if any. -/
def headCh (l : List Char) : Option Char := l.head?

/-- Last character, if any. -/
def lastCh (l : List Char) : Option Char := l.reverse.head?

theorem lastCh_mem {l : List Char} {c : Char} (h : lastCh l = some c) : c ∈ l := by
  unfold lastCh at h
  cases hr : l.reverse with
  | nil => rw [hr] at h; cases h
  | cons a t =>
    rw [hr] at h
    cases h
    have : c ∈ l.reverse := by rw [hr]; simp
    simpa using this

theorem headCh_mem {l : List Char} {c : Char} (h : headCh l = some c) : c ∈ l := by
  unfold headCh at h
  cases l with
  | nil => cases h
  | cons a t => cases h; simp

theorem lastCh_append_right {u q : List Char} (hq : q ≠ []) :
    lastCh (u ++ q) = lastCh q := by
  unfold lastCh
  rw [List.reverse_append]
  cases hr : q.reverse with
  | nil =>
    exact absurd (by simpa using congrArg List.reverse hr) hq
  | cons a t => simp

theorem endsWithL_lastCh {q1 r : List Char} (h : endsWithL q1 r) (hne : q1 ≠ []) :
    lastCh r = lastCh q1 := by
  obtain ⟨u, hu⟩ := h
  rw [hu]
  exact lastCh_append_right hne

theorem lastCh_some_of_ne_nil {l : List Char} (h : l ≠ []) : ∃ c, lastCh l = some c := by
  unfold lastCh
  cases hr : l.reverse with
  | nil => exact absurd (by simpa using congrArg List.reverse hr) h
  | cons a t => exact ⟨a, rfl⟩

theorem endsWithL_singleton {q1 : List Char} {c : Char} (h : endsWithL q1 [c])
    (hne : q1 ≠ []) : q1 = [c] := by
  obtain ⟨u, hu⟩ := h
  cases u with
  | nil => simpa using hu.symm
  | cons a b =>
    rw [List.cons_append] at hu
    injection hu with h1 h2
    exact absurd (List.append_eq_nil.mp h2.symm).2 hne

theorem occursIn_singleton {p : List Char} {c : Char} (h : occursIn p [c])
    (hne : p ≠ []) : p = [c] := by
  obtain ⟨u, v, huv⟩ := h
  cases u with
  | nil =>
    simp only [List.nil_append] at huv
    cases p with
    | nil => exact absurd rfl hne
    | cons ph pt =>
      rw [List.cons_append] at huv
      injection huv with h1 h2
      have := List.append_eq_nil.mp h2.symm
      rw [h1, this.1]
  | cons a b =>
    rw [List.append_assoc, List.cons_append] at huv
    injection huv with h1 h2
    have := List.append_eq_nil.mp h2.symm
    exact absurd (List.append_eq_nil.mp this.2).1 hne

/-- The boundary-crossing contradiction: a nonempty final segment of the
replacement would have to end in an alphabet character. -/
theorem straddle_contra {q q1 q2 r : List Char} {A : Char → Bool}
    (hq : ∀ c ∈ q, A c = true) (hq12 : q = q1 ++ q2) (hq1ne : q1 ≠ [])
    (hend : endsWithL q1 r)
    (hrl : ∀ c, lastCh r = some c → A c = false) : False := by
  obtain ⟨cl, hcl⟩ := lastCh_some_of_ne_nil hq1ne
  have hlr : lastCh r = some cl := by
    rw [endsWithL_lastCh hend hq1ne, hcl]
  have h1 : A cl = true := hq cl (by rw [hq12]; exact List.mem_append_left q2 (lastCh_mem hcl))
  have h2 : A cl = false := hrl cl hlr
  rw [h1] at h2
  cases h2

/-- A prefix of the output of a chunk decomposition whose characters all lie
in the alphabet `A` (while the replacement starts outside `A`) must already
be a prefix of the input. -/
theorem chunks_pre {p r t res : List Char} {A : Char → Bool}
    (hr : r ≠ []) (hrh : ∀ c, headCh r = some c → A c = false)
    (ch : Chunks p r t res) :
    ∀ q : List Char, (∀ c ∈ q, A c = true) → q ≠ [] → startsWithL q res → startsWithL q t := by
  induction ch with
  | nil =>
    intro q _ hne hpre
    obtain ⟨v, hv⟩ := hpre
    exact absurd (List.append_eq_nil.mp hv.symm).1 hne
  | keep c hnm h ih =>
    rename_i t0 res0
    intro q hq hne hpre
    obtain ⟨v, hv⟩ := hpre
    cases q with
    | nil => exact absurd rfl hne
    | cons qh qt =>
      rw [List.cons_append] at hv
      injection hv with h1 h2
      by_cases hqt : qt = []
      · subst hqt
        exact ⟨t0, by simp [h1]⟩
      · obtain ⟨w, hw⟩ := ih qt (fun x hx => hq x (List.mem_cons_of_mem qh hx)) hqt ⟨v, h2⟩
        refine ⟨w, ?_⟩
        rw [hw, h1]
        simp
  | repl h ih =>
    rename_i t0 res0
    intro q hq hne hpre
    obtain ⟨v, hv⟩ := hpre
    cases q with
    | nil => exact absurd rfl hne
    | cons qh qt =>
      cases r with
      | nil => exact absurd rfl hr
      | cons rh rt =>
        rw [List.cons_append, List.cons_append] at hv
        injection hv with h1 h2
        have hA1 : A qh = true := hq qh (by simp)
        have hA2 : A rh = false := hrh rh rfl
        rw [h1, hA1] at hA2
        cases hA2

/-- After `replaceAll p r`, the pattern `p` no longer occurs (when `p` lives
in alphabet `A`, `r` begins and ends outside `A`, and `p` does not occur in
`r`). -/
theorem chunks_no_pattern {p r t res : List Char} {A : Char → Bool}
    (hp : p ≠ []) (hA : ∀ c ∈ p, A c = true)
    (hr : r ≠ [])
    (hrh : ∀ c, headCh r = some c → A c = false)
    (hrl : ∀ c, lastCh r = some c → A c = false)
    (hpr : ¬ occursIn p r)
    (ch : Chunks p r t res) : ¬ occursIn p res := by
  induction ch with
  | nil =>
    rintro ⟨u, v, huv⟩
    have h1 := List.append_eq_nil.mp huv.symm
    exact absurd (List.append_eq_nil.mp h1.1).2 hp
  | keep c hnm h ih =>
    rename_i t0 res0
    intro hocc
    have hocc' : occursIn p ([c] ++ res0) := by simpa using hocc
    rcases occursIn_append hocc' with h1 | h1 | ⟨q1, q2, hq12, hq1ne, hq2ne, hend, hstart⟩
    · have hpc : p = [c] := occursIn_singleton h1 hp
      rw [hpc] at hnm
      simp [isPre] at hnm
    · exact ih h1
    · have hq1 : q1 = [c] := endsWithL_singleton hend hq1ne
      have hq2A : ∀ x ∈ q2, A x = true := fun x hx =>
        hA x (by rw [hq12]; exact List.mem_append_right q1 hx)
      obtain ⟨w, hw⟩ := chunks_pre hr hrh h q2 hq2A hq2ne hstart
      have hm : isPre p (c :: t0) = true := by
        rw [isPre_iff]
        refine ⟨w, ?_⟩
        rw [hq12, hq1, hw]
        simp
      rw [hm] at hnm
      cases hnm
  | repl h ih =>
    rename_i t0 res0
    intro hocc
    rcases occursIn_append hocc with h1 | h1 | ⟨q1, q2, hq12, hq1ne, hq2ne, hend, hstart⟩
    · exact hpr h1
    · exact ih h1
    · exact straddle_contra hA hq12 hq1ne hend hrl

/-- `replaceAll p r` does not create a new occurrence of a token `q` that
lives in alphabet `A` (when `r` begins and ends outside `A` and `q` does not
occur in `r`). -/
theorem chunks_no_new {p r t res q : List Char} {A : Char → Bool}
    (hq : ∀ c ∈ q, A c = true) (hqne : q ≠ [])
    (hr : r ≠ [])
    (hrh : ∀ c, headCh r = some c → A c = false)
    (hrl : ∀ c, lastCh r = some c → A c = false)
    (hqr : ¬ occursIn q r)
    (ch : Chunks p r t res) :
    ¬ occursIn q t → ¬ occursIn q res := by
  induction ch with
  | nil => exact id
  | keep c hnm h ih =>
    rename_i t0 res0
    intro ht hocc
    have hocc' : occursIn q ([c] ++ res0) := by simpa using hocc
    rcases occursIn_append hocc' with h1 | h1 | ⟨q1, q2, hq12, hq1ne, hq2ne, hend, hstart⟩
    · have hqc : q = [c] := occursIn_singleton h1 hqne
      exact ht ⟨[], t0, by rw [hqc]; simp⟩
    · refine ih ?_ h1
      intro hx
      obtain ⟨u, v, huv⟩ := hx
      exact ht ⟨c :: u, v, by rw [huv]; simp⟩
    · have hq1 : q1 = [c] := endsWithL_singleton hend hq1ne
      have hq2A : ∀ x ∈ q2, A x = true := fun x hx =>
        hq x (by rw [hq12]; exact List.mem_append_right q1 hx)
      obtain ⟨w, hw⟩ := chunks_pre hr hrh h q2 hq2A hq2ne hstart
      exact ht ⟨[], w, by rw [hq12, hq1, hw]; simp⟩
  | repl h ih =>
    rename_i t0 res0
    intro ht hocc
    rcases occursIn_append hocc with h1 | h1 | ⟨q1, q2, hq12, hq1ne, hq2ne, hend, hstart⟩
    · exact hqr h1
    · refine ih ?_ h1
      intro hx
      obtain ⟨u, v, huv⟩ := hx
      exact ht ⟨p ++ u, v, by rw [huv]; simp⟩
    · exact straddle_contra hq hq12 hq1ne hend hrl

/-! ## The token table of `setup_python_versions` (post_gen_project.py lines 195-234)

The placeholder tokens are built from `'_'` and capital letters; every
replacement value begins and ends with a character outside that alphabet and
contains no underscore.  These are the facts that make the replacement loop
eliminate every token without ever re-creating one. -/

/-- The token alphabet: underscore and capital ASCII letters. -/
def inA (c : Char) : Bool := c.toNat == 95 || (65 ≤ c.toNat && c.toNat ≤ 90)

/-- `f"3.{n}"` — the version strings handled by the hook (`n` is an `int`;
it is negative only for pathological `requires-python` bounds, which the
rendering still covers). -/
def mkVerL (i : Int) : List Char := '3' :: '.' :: intChars i

/-- `json.dumps` of one string (no escaping needed: the rendered versions
contain no quotes or backslashes). -/
def jsonQuote (v : List Char) : List Char := ('"' :: v) ++ ['"']

/-- Join with a separator (`", ".join` / `"\n".join`). -/
def joinSep (sep : List Char) : List (List Char) → List Char
  | [] => []
  | [x] => x
  | x :: xs => (x ++ sep) ++ joinSep sep xs

/-- `json.dumps` of a list of strings (default separator `", "`). -/
def jsonList (xs : List (List Char)) : List Char :=
  ('[' :: joinSep [',', ' '] (xs.map jsonQuote)) ++ [']']

/-- Zero-padded decimal of width `w` (`strftime` `%Y` / `%m` / `%d`). -/
def padChars (w n : Nat) : List Char :=
  List.replicate (w - (natChars n).length) '0' ++ natChars n

/-- `date.today().strftime("%Y-%m-%d")`. -/
def dateChars (y m d : Nat) : List Char :=
  (padChars 4 y ++ ('-' :: padChars 2 m)) ++ ('-' :: padChars 2 d)

/-- One line of `__PY_CLASSIFIERS__`:
`f'    "Programming Language :: Python :: {v}",'`. -/
def classifierLine (v : List Char) : List Char :=
  ("    \"Programming Language :: Python :: ".data ++ v) ++ "\",".data

/-- `lo.replace(".", "")` — with an empty replacement a single-character
pattern deletion is a filter. -/
def removeDots (l : List Char) : List Char := l.filter (fun c => !(c == '.'))

/-- `matrix_versions = [lo] if lo == hi else [lo, hi]` (line 192). -/
def matrixVers (lo hi : Int) : List (List Char) :=
  if mkVerL lo = mkVerL hi then [mkVerL lo] else [mkVerL lo, mkVerL hi]

/-- The `tokens` dict of `setup_python_versions` (lines 195-204), in
insertion order (`__PY_CLASSIFIERS__` is added last). -/
def tokenPairs (lo hi : Int) (y m d : Nat) : List (List Char × List Char) :=
  [ ("__PY_MIN__".data, mkVerL lo),
    ("__PY_MATRIX__".data, jsonList (matrixVers lo hi)),
    ("__PY_MAX__".data, mkVerL hi),
    ("__PY_SHORT__".data, removeDots (mkVerL lo)),
    ("__RELEASE_DATE__".data, dateChars y m d),
    ("__PY_CLASSIFIERS__".data, joinSep ['\n'] ((matrixVers lo hi).map classifierLine)) ]

/-- The replacement loop (lines 228-229): each token replaced in turn. -/
def applyTokens (ps : List (List Char × List Char)) (content : List Char) : List Char :=
  ps.foldl (fun c pr => replaceAll pr.1 pr.2 c) content

/-- Everything `chunks_no_pattern` / `chunks_no_new` need from one
token/replacement pair. -/
def TokGood (pr : List Char × List Char) : Prop :=
  pr.1 ≠ [] ∧ (∀ c ∈ pr.1, inA c = true) ∧ '_' ∈ pr.1 ∧
  pr.2 ≠ [] ∧ (∀ c, headCh pr.2 = some c → inA c = false) ∧
  (∀ c, lastCh pr.2 = some c → inA c = false) ∧ (∀ c ∈ pr.2, ¬ c = '_')

theorem isDig_not_inA {c : Char} (h : isDig c = true) : inA c = false := by
  have := isDig_toNat h
  simp only [inA, Bool.or_eq_false_iff, beq_eq_false_iff_ne, ne_eq,
    Bool.and_eq_false_iff, decide_eq_false_iff_not, not_le]
  omega

theorem intChars_chars {i : Int} : ∀ c ∈ intChars i, isDig c = true ∨ c = '-' := by
  intro c hc
  unfold intChars at hc
  split at hc
  · rcases List.mem_cons.mp hc with hc | hc
    · right; exact hc
    · left; exact natChars_all_dig _ _ hc
  · left; exact natChars_all_dig _ _ hc

theorem intChars_ne_nil (i : Int) : intChars i ≠ [] := by
  unfold intChars
  split
  · simp
  · exact natChars_ne_nil _

theorem intChars_not_inA {i : Int} : ∀ c ∈ intChars i, inA c = false := by
  intro c hc
  rcases intChars_chars c hc with h | h
  · exact isDig_not_inA h
  · rw [h]; decide

theorem intChars_no_und {i : Int} : ∀ c ∈ intChars i, ¬ c = '_' := by
  intro c hc he
  have := intChars_not_inA c hc
  rw [he] at this
  simp [inA] at this

theorem mkVerL_not_inA {i : Int} : ∀ c ∈ mkVerL i, inA c = false := by
  intro c hc
  rcases List.mem_cons.mp hc with hc | hc
  · rw [hc]; decide
  · rcases List.mem_cons.mp hc with hc | hc
    · rw [hc]; decide
    · exact intChars_not_inA c hc

theorem mkVerL_ne_nil (i : Int) : mkVerL i ≠ [] := by simp [mkVerL]

/-- The conditions on a replacement all of whose characters avoid the token
alphabet. -/
theorem tokGood_of_noA {tok r : List Char} (htne : tok ≠ [])
    (htA : ∀ c ∈ tok, inA c = true) (htu : '_' ∈ tok)
    (hrne : r ≠ []) (hrA : ∀ c ∈ r, inA c = false) : TokGood (tok, r) := by
  refine ⟨htne, htA, htu, hrne, ?_, ?_, ?_⟩
  · exact fun c hc => hrA c (headCh_mem hc)
  · exact fun c hc => hrA c (lastCh_mem hc)
  · intro c hc he
    have := hrA c hc
    rw [he] at this
    simp [inA] at this

theorem headCh_append_left {l x : List Char} (h : l ≠ []) :
    headCh (l ++ x) = headCh l := by
  cases l with
  | nil => exact absurd rfl h
  | cons a t => rfl

theorem mem_joinSep {sep : List Char} {c : Char} :
    ∀ {xs : List (List Char)}, c ∈ joinSep sep xs → c ∈ sep ∨ ∃ x ∈ xs, c ∈ x := by
  intro xs
  induction xs with
  | nil => intro h; simp [joinSep] at h
  | cons x xs ih =>
    intro h
    cases xs with
    | nil =>
      right
      exact ⟨x, by simp, by simpa [joinSep] using h⟩
    | cons y ys =>
      rw [show joinSep sep (x :: y :: ys) = (x ++ sep) ++ joinSep sep (y :: ys) from rfl]
        at h
      rcases List.mem_append.mp h with h1 | h1
      · rcases List.mem_append.mp h1 with h2 | h2
        · right; exact ⟨x, by simp, h2⟩
        · left; exact h2
      · rcases ih h1 with h2 | ⟨z, hz1, hz2⟩
        · left; exact h2
        · right; exact ⟨z, by simp [hz1], hz2⟩

theorem matrixVers_mem {lo hi : Int} {x : List Char} (h : x ∈ matrixVers lo hi) :
    x = mkVerL lo ∨ x = mkVerL hi := by
  unfold matrixVers at h
  split at h
  · rcases List.mem_singleton.mp h with h1
    left; exact h1
  · rcases List.mem_cons.mp h with h1 | h1
    · left; exact h1
    · right; exact List.mem_singleton.mp h1

theorem jsonList_not_inA {xs : List (List Char)}
    (h : ∀ x ∈ xs, ∀ c ∈ x, inA c = false) : ∀ c ∈ jsonList xs, inA c = false := by
  intro c hc
  unfold jsonList at hc
  rcases List.mem_append.mp hc with h1 | h1
  · rcases List.mem_cons.mp h1 with h2 | h2
    · rw [h2]; decide
    · rcases mem_joinSep h2 with h3 | ⟨x, hx1, hx2⟩
      · rcases List.mem_cons.mp h3 with h4 | h4
        · rw [h4]; decide
        · rw [List.mem_singleton.mp h4]; decide
      · obtain ⟨v, hv1, hv2⟩ := List.mem_map.mp hx1
        rw [← hv2] at hx2
        unfold jsonQuote at hx2
        rcases List.mem_append.mp hx2 with h4 | h4
        · rcases List.mem_cons.mp h4 with h5 | h5
          · rw [h5]; decide
          · exact h v hv1 c h5
        · rw [List.mem_singleton.mp h4]; decide
  · rw [List.mem_singleton.mp h1]; decide

theorem padChars_all_dig (w n : Nat) : ∀ c ∈ padChars w n, isDig c = true := by
  intro c hc
  unfold padChars at hc
  rcases List.mem_append.mp hc with h1 | h1
  · rw [List.eq_of_mem_replicate h1]; decide
  · exact natChars_all_dig n c h1

theorem dateChars_not_inA (y m d : Nat) : ∀ c ∈ dateChars y m d, inA c = false := by
  intro c hc
  unfold dateChars at hc
  rcases List.mem_append.mp hc with h1 | h1
  · rcases List.mem_append.mp h1 with h2 | h2
    · exact isDig_not_inA (padChars_all_dig 4 y c h2)
    · rcases List.mem_cons.mp h2 with h3 | h3
      · rw [h3]; decide
      · exact isDig_not_inA (padChars_all_dig 2 m c h3)
  · rcases List.mem_cons.mp h1 with h2 | h2
    · rw [h2]; decide
    · exact isDig_not_inA (padChars_all_dig 2 d c h2)

theorem tokGood_min (lo : Int) : TokGood ("__PY_MIN__".data, mkVerL lo) :=
  tokGood_of_noA (by decide) (by decide) (by decide) (mkVerL_ne_nil lo)
    mkVerL_not_inA

theorem tokGood_matrix (lo hi : Int) :
    TokGood ("__PY_MATRIX__".data, jsonList (matrixVers lo hi)) := by
  refine tokGood_of_noA (by decide) (by decide) (by decide) (by simp [jsonList]) ?_
  intro c hc
  refine jsonList_not_inA ?_ c hc
  intro x hx
  rcases matrixVers_mem hx with h | h <;> rw [h] <;> exact mkVerL_not_inA

theorem tokGood_max (hi : Int) : TokGood ("__PY_MAX__".data, mkVerL hi) :=
  tokGood_of_noA (by decide) (by decide) (by decide) (mkVerL_ne_nil hi)
    mkVerL_not_inA

theorem tokGood_short (lo : Int) : TokGood ("__PY_SHORT__".data, removeDots (mkVerL lo)) := by
  refine tokGood_of_noA (by decide) (by decide) (by decide) ?_ ?_
  · rw [show removeDots (mkVerL lo) = '3' :: removeDots ('.' :: intChars lo) from
      List.filter_cons_of_pos (by decide)]
    simp
  · intro c hc
    unfold removeDots at hc
    exact mkVerL_not_inA c (List.mem_of_mem_filter hc)

theorem tokGood_date (y m d : Nat) : TokGood ("__RELEASE_DATE__".data, dateChars y m d) := by
  refine tokGood_of_noA (by decide) (by decide) (by decide) ?_ (dateChars_not_inA y m d)
  unfold dateChars
  simp

theorem classifierLine_ne_nil (v : List Char) : classifierLine v ≠ [] := by
  simp [classifierLine]

theorem headCh_classifierLine (v : List Char) : headCh (classifierLine v) = some ' ' := by
  unfold classifierLine
  rw [headCh_append_left (by simp), headCh_append_left (by decide)]
  decide

theorem lastCh_classifierLine (v : List Char) : lastCh (classifierLine v) = some ',' := by
  unfold classifierLine
  rw [lastCh_append_right (by decide)]
  decide

theorem classifierLine_no_und {i : Int} :
    ∀ c ∈ classifierLine (mkVerL i), ¬ c = '_' := by
  intro c hc he
  unfold classifierLine at hc
  rcases List.mem_append.mp hc with h1 | h1
  · rcases List.mem_append.mp h1 with h2 | h2
    · subst he; revert h2; decide
    · have := mkVerL_not_inA c h2
      subst he
      simp [inA] at this
  · subst he; revert h1; decide

theorem tokGood_mk {a b : List Char} (h1 : a ≠ []) (h2 : ∀ c ∈ a, inA c = true)
    (h3 : '_' ∈ a) (h4 : b ≠ []) (h5 : ∀ c, headCh b = some c → inA c = false)
    (h6 : ∀ c, lastCh b = some c → inA c = false) (h7 : ∀ c ∈ b, ¬ c = '_') :
    TokGood (a, b) := ⟨h1, h2, h3, h4, h5, h6, h7⟩

theorem tokGood_classifiers (lo hi : Int) :
    TokGood ("__PY_CLASSIFIERS__".data,
      joinSep ['\n'] ((matrixVers lo hi).map classifierLine)) := by
  unfold matrixVers
  split
  · -- lo and hi render equally: a single classifier line
    rw [show joinSep ['\n'] ([mkVerL lo].map classifierLine) =
      classifierLine (mkVerL lo) from rfl]
    refine tokGood_mk (by decide) (by decide) (by decide) (classifierLine_ne_nil _) ?_ ?_ ?_
    · intro c hc
      rw [headCh_classifierLine] at hc
      cases hc
      decide
    · intro c hc
      rw [lastCh_classifierLine] at hc
      cases hc
      decide
    · exact classifierLine_no_und
  · -- two classifier lines joined by a newline
    rw [show joinSep ['\n'] ([mkVerL lo, mkVerL hi].map classifierLine) =
      (classifierLine (mkVerL lo) ++ ['\n']) ++ classifierLine (mkVerL hi) from rfl]
    refine tokGood_mk (by decide) (by decide) (by decide) (by simp) ?_ ?_ ?_
    · intro c hc
      rw [headCh_append_left (by simp [classifierLine]),
        headCh_append_left (classifierLine_ne_nil _), headCh_classifierLine] at hc
      cases hc
      decide
    · intro c hc
      rw [lastCh_append_right (classifierLine_ne_nil _), lastCh_classifierLine] at hc
      cases hc
      decide
    · intro c hc
      rcases List.mem_append.mp hc with h1 | h1
      · rcases List.mem_append.mp h1 with h2 | h2
        · exact classifierLine_no_und c h2
        · intro he
          rw [List.mem_singleton.mp h2] at he
          cases he
      · exact classifierLine_no_und c h1

theorem applyTokens_cons (pr : List Char × List Char) (ps : List (List Char × List Char))
    (c : List Char) :
    applyTokens (pr :: ps) c = applyTokens ps (replaceAll pr.1 pr.2 c) := rfl

theorem tokGood_no_occ_repl {q : List Char} {pr : List Char × List Char}
    (hund : '_' ∈ q) (hg : TokGood pr) : ¬ occursIn q pr.2 := by
  rintro ⟨u, v, huv⟩
  have hm : '_' ∈ pr.2 := by
    rw [huv]
    exact List.mem_append.mpr (Or.inl (List.mem_append.mpr (Or.inr hund)))
  exact hg.2.2.2.2.2.2 '_' hm rfl

theorem applyTokens_preserve {q : List Char}
    (hqA : ∀ c ∈ q, inA c = true) (hqne : q ≠ []) (hund : '_' ∈ q) :
    ∀ (ps : List (List Char × List Char)), (∀ pr ∈ ps, TokGood pr) →
      ∀ content, ¬ occursIn q content → ¬ occursIn q (applyTokens ps content) := by
  intro ps
  induction ps with
  | nil => intro _ content h; exact h
  | cons pr rest ih =>
    intro hgood content h
    rw [applyTokens_cons]
    have hg := hgood pr (by simp)
    refine ih (fun x hx => hgood x (by simp [hx])) _ ?_
    exact chunks_no_new hqA hqne hg.2.2.2.1 hg.2.2.2.2.1 hg.2.2.2.2.2.1
      (tokGood_no_occ_repl hund hg)
      (replaceAll_chunks pr.1 pr.2 hg.1 content) h

theorem applyTokens_removes :
    ∀ (ps : List (List Char × List Char)), (∀ pr ∈ ps, TokGood pr) →
      ∀ content, ∀ pr ∈ ps, ¬ occursIn pr.1 (applyTokens ps content) := by
  intro ps
  induction ps with
  | nil => intro _ content pr hpr; simp at hpr
  | cons pr0 rest ih =>
    intro hgood content pr hpr
    rw [applyTokens_cons]
    rcases List.mem_cons.mp hpr with h | h
    · subst h
      have hg := hgood pr (by simp)
      refine applyTokens_preserve hg.2.1 hg.1 hg.2.2.1 rest
        (fun x hx => hgood x (by simp [hx])) _ ?_
      exact chunks_no_pattern hg.1 hg.2.1 hg.2.2.2.1 hg.2.2.2.2.1 hg.2.2.2.2.2.1
        (tokGood_no_occ_repl hg.2.2.1 hg)
        (replaceAll_chunks pr.1 pr.2 hg.1 content)
    · exact ih (fun x hx => hgood x (by simp [hx])) _ pr h

theorem tokenPairs_good (lo hi : Int) (y m d : Nat) :
    ∀ pr ∈ tokenPairs lo hi y m d, TokGood pr := by
  intro pr hpr
  unfold tokenPairs at hpr
  rcases List.mem_cons.mp hpr with h | hpr
  · rw [h]; exact tokGood_min lo
  rcases List.mem_cons.mp hpr with h | hpr
  · rw [h]; exact tokGood_matrix lo hi
  rcases List.mem_cons.mp hpr with h | hpr
  · rw [h]; exact tokGood_max hi
  rcases List.mem_cons.mp hpr with h | hpr
  · rw [h]; exact tokGood_short lo
  rcases List.mem_cons.mp hpr with h | hpr
  · rw [h]; exact tokGood_date y m d
  rcases List.mem_cons.mp hpr with h | hpr
  · rw [h]; exact tokGood_classifiers lo hi
  simp at hpr

/-- **C7.** For every minimum-Python-version input (any rendered bounds
`3.lo` / `3.hi`), every run date, and every file content, after the
replacement loop of `setup_python_versions` runs over a file, none of the six
placeholder tokens (`__PY_MIN__`, `__PY_MATRIX__`, `__PY_MAX__`,
`__PY_SHORT__`, `__PY_CLASSIFIERS__`, `__RELEASE_DATE__`) occurs in the
resulting content.  (A file that is not written is one whose content the loop
left unchanged, so its final content is also `applyTokens` of its original
content and is covered.) -/
theorem setup_python_versions_no_tokens (lo hi : Int) (y m d : Nat) (content : List Char) :
    ∀ pr ∈ tokenPairs lo hi y m d,
      ¬ occursIn pr.1 (applyTokens (tokenPairs lo hi y m d) content) :=
  applyTokens_removes (tokenPairs lo hi y m d) (tokenPairs_good lo hi y m d) content

/-- Witness for **C7**: the `__PY_MIN__` token is gone from a concrete file
content after the loop. -/
theorem setup_python_versions_no_tokens_witness :
    ¬ occursIn "__PY_MIN__".data
      (applyTokens (tokenPairs 12 12 2026 1 2) "py = \"__PY_MIN__\"\n".data) :=
  setup_python_versions_no_tokens 12 12 2026 1 2 "py = \"__PY_MIN__\"\n".data
    ("__PY_MIN__".data, mkVerL 12) (by simp [tokenPairs])

/-! ## SHA-1 (Python `hashlib.sha1(...).hexdigest()`)

Modelled from the Python standard library used at post_gen_project.py line
310: the RFC 3174 compression over the UTF-8 bytes of the input, rendered as
40 lowercase hex characters.  All 32-bit arithmetic is `Nat` with explicit
`% 2^32`. -/

/-- `2^32`. -/
def w32 : Nat := 4294967296

/-- 32-bit left rotation. -/
def rotl (x n : Nat) : Nat := ((x <<< n) % w32) ||| ((x % w32) >>> (32 - n))

/-- The SHA-1 round functions. -/
def sha1F (t b c d : Nat) : Nat :=
  if t < 20 then (b &&& c) ||| ((b ^^^ 4294967295) &&& d)
  else if t < 40 then b ^^^ c ^^^ d
  else if t < 60 then (b &&& c) ||| (b &&& d) ||| (c &&& d)
  else b ^^^ c ^^^ d

/-- The SHA-1 round constants. -/
def sha1K (t : Nat) : Nat :=
  if t < 20 then 1518500249
  else if t < 40 then 1859775393
  else if t < 60 then 2400959708
  else 3395469782

/-- Big-endian 32-bit words from bytes. -/
def bytes2words : List Nat → List Nat
  | b0 :: b1 :: b2 :: b3 :: rest => (((b0 * 256 + b1) * 256 + b2) * 256 + b3) :: bytes2words rest
  | _ => []

/-- Extend the 16 message words to 80 (`k` more rounds of the recurrence). -/
def schedule : Nat → List Nat → List Nat
  | 0, acc => acc
  | k + 1, acc =>
    schedule k (acc ++ [rotl ((acc.getD (acc.length - 3) 0 ^^^ acc.getD (acc.length - 8) 0) ^^^
      (acc.getD (acc.length - 14) 0 ^^^ acc.getD (acc.length - 16) 0)) 1])

/-- One SHA-1 round. -/
def sha1Round (st : Nat × Nat × Nat × Nat × Nat) (tw : Nat × Nat) :
    Nat × Nat × Nat × Nat × Nat :=
  let (a, b, c, d, e) := st
  let (t, wt) := tw
  ((rotl a 5 + sha1F t b c d + e + wt + sha1K t) % w32, a, rotl b 30, c, d)

/-- Compress one 64-byte block into the running state. -/
def sha1Compress (h : Nat × Nat × Nat × Nat × Nat) (block : List Nat) :
    Nat × Nat × Nat × Nat × Nat :=
  let w := schedule 64 (bytes2words block)
  let st := ((List.range 80).zip w).foldl sha1Round h
  ((h.1 + st.1) % w32, (h.2.1 + st.2.1) % w32, (h.2.2.1 + st.2.2.1) % w32,
    (h.2.2.2.1 + st.2.2.2.1) % w32, (h.2.2.2.2 + st.2.2.2.2) % w32)

/-- Merkle-Damgård padding: `0x80`, zeros to 56 mod 64, 8-byte big-endian
bit length. -/
def sha1Pad (msg : List Nat) : List Nat :=
  let bitlen := msg.length * 8
  let k := (55 - msg.length % 64 + 64) % 64
  msg ++ [128] ++ List.replicate k 0 ++
    (List.range 8).map (fun i => (bitlen >>> (8 * (7 - i))) &&& 255)

/-- Fuel-driven split into 64-byte blocks (fuel ≥ length suffices). -/
def blocksF : Nat → List Nat → List (List Nat)
  | 0, _ => []
  | _ + 1, [] => []
  | f + 1, l => l.take 64 :: blocksF f (l.drop 64)

/-- The five-word SHA-1 digest of a byte string. -/
def sha1Digest (msg : List Nat) : Nat × Nat × Nat × Nat × Nat :=
  let padded := sha1Pad msg
  (blocksF padded.length padded).foldl sha1Compress
    (1732584193, 4023233417, 2562383102, 271733878, 3285377520)

/-- Lowercase hex digit. -/
def hexDigitCh (n : Nat) : Char :=
  match n with
  | 0 => '0' | 1 => '1' | 2 => '2' | 3 => '3' | 4 => '4'
  | 5 => '5' | 6 => '6' | 7 => '7' | 8 => '8' | 9 => '9'
  | 10 => 'a' | 11 => 'b' | 12 => 'c' | 13 => 'd' | 14 => 'e' | _ => 'f'

/-- Eight hex characters of one 32-bit word (big-endian nibbles). -/
def toHex8 (x : Nat) : List Char :=
  (List.range 8).map (fun i => hexDigitCh ((x >>> (4 * (7 - i))) % 16))

/-- `hashlib.sha1(basis.encode("utf-8")).hexdigest()`. -/
def sha1hex (s : String) : String :=
  let d := sha1Digest (s.toUTF8.toList.map (fun b => b.toNat))
  String.mk (toHex8 d.1 ++ toHex8 d.2.1 ++ toHex8 d.2.2.1 ++ toHex8 d.2.2.2.1 ++
    toHex8 d.2.2.2.2)

/-- Lowercase hex character (the class `[0-9a-f]`). -/
def isHexLow (c : Char) : Bool := isDig c || (97 ≤ c.toNat && c.toNat ≤ 102)

/-- `re.fullmatch(r"[0-9a-f]{40}", s)` as a Bool. -/
def hex40 (s : String) : Bool := s.data.length == 40 && s.data.all isHexLow

theorem toHex8_length (x : Nat) : (toHex8 x).length = 8 := by
  simp [toHex8]

theorem toHex8_hex (x : Nat) : ∀ c ∈ toHex8 x, isHexLow c = true := by
  intro c hc
  unfold toHex8 at hc
  obtain ⟨i, _, hi⟩ := List.mem_map.mp hc
  have hlt : (x >>> (4 * (7 - i))) % 16 < 16 := Nat.mod_lt _ (by norm_num)
  rw [← hi]
  generalize (x >>> (4 * (7 - i))) % 16 = v at hlt ⊢
  interval_cases v <;> decide

/-- The synthetic fallback commit is always a 40-character lowercase hex
string. -/
theorem hex40_sha1hex (s : String) : hex40 (sha1hex s) = true := by
  unfold sha1hex hex40
  simp only [String.data]
  rw [Bool.and_eq_true]
  constructor
  · simp [toHex8_length]
  · rw [List.all_eq_true]
    intro c hc
    simp only [List.mem_append] at hc
    rcases hc with ((((h | h) | h) | h) | h) <;> exact toHex8_hex _ c h

/-! ## `.cruft.json` and `setup_cruft_tracking` (post_gen_project.py lines 249-319)

JSON values are modelled by `JVal` (numbers as `Int`; floats do not occur in
`.cruft.json`).  The outcomes of all external effects sit in `CruftEnv`:

* `envCommit name`: `os.environ.get(name)`;
* `pathEx p` / `gitEx p`: `Path(p).exists()` / `(Path(p) / ".git").exists()`
  (`Path.home()` is rendered as `"~"`);
* `revParse p`: `_run_command(["git", "rev-parse", "HEAD"], cwd=p)` — `some`
  exactly when the command exited 0 with truthy stdout, carrying the stripped
  stdout;
* `lsRemote t`: `_run_command(["git", "ls-remote", t, "HEAD"])`;
* `writeOk`: whether `cruft_path.write_text` succeeds (an `OSError` there is
  caught by the handler at lines 318-319).

The result records the uncaught Python exception, if any (`exc`), and the
value written to `.cruft.json`, if a successful write happened (`written`);
`written = none` means the file is byte-for-byte unchanged. -/

inductive JVal where
  | jnull
  | jbool (b : Bool)
  | jnum (n : Int)
  | jstr (s : String)
  | jarr (xs : List JVal)
  | jobj (fields : List (String × JVal))

/-- Python truthiness of a JSON value. -/
def jTruthy : JVal → Bool
  | .jnull => false
  | .jbool b => b
  | .jnum n => !(n == 0)
  | .jstr s => !(s == "")
  | .jarr xs => !xs.isEmpty
  | .jobj fs => !fs.isEmpty

/-- Values on which Python slicing `x[:8]` works (line 262 slices the commit
for the log message). -/
def sliceable : JVal → Bool
  | .jstr _ => true
  | .jarr _ => true
  | _ => false

/-- `dict.get` on the parsed object (keys are unique after `json.loads`). -/
def objGet : List (String × JVal) → String → Option JVal
  | [], _ => none
  | (k, v) :: fs, key => if k = key then some v else objGet fs key

/-- `data["commit"] = known_commit`: replace in place, else append (dict
insertion order). -/
def setField : List (String × JVal) → String → JVal → List (String × JVal)
  | [], k, v => [(k, v)]
  | (k', v') :: fs, k, v =>
    if k' = k then (k, v) :: fs else (k', v') :: setField fs k v

inductive PyExc where
  | attributeError
  | typeError

structure CruftEnv where
  envCommit : String → Option String
  pathEx : String → Bool
  gitEx : String → Bool
  revParse : String → Option String
  lsRemote : String → Option String
  writeOk : Bool

inductive CruftFile where
  | absent
  | readError
  | badJson
  | content (v : JVal)

structure CruftResult where
  exc : Option PyExc
  written : Option JVal

/-- Truthiness of the `known_commit` variable (`None` and `""` are both
falsy, and every guard in the Python code tests truthiness). -/
def truthyOpt : Option String → Bool
  | some s => !(s == "")
  | none => false

/-- One iteration of the environment-variable loop (lines 269-274): the value
counts only when non-empty and a 40-hex string. -/
def tryEnvVar (env : CruftEnv) (name : String) : Option String :=
  match env.envCommit name with
  | some v => if !(v == "") && hex40 v then some v else none
  | none => none

/-- The environment-variable strategy: `COOKIECUTTER_TEMPLATE_COMMIT`, then
`GITHUB_SHA`. -/
def envPick (env : CruftEnv) : Option String :=
  match tryEnvVar env "COOKIECUTTER_TEMPLATE_COMMIT" with
  | some v => some v
  | none => tryEnvVar env "GITHUB_SHA"

/-- `template.startswith(("http://", "https://", "git@", "git://"))`. -/
def isRemoteUrl (t : String) : Bool :=
  isPre "http://".data t.data || isPre "https://".data t.data ||
    isPre "git@".data t.data || isPre "git://".data t.data

/-- `s.split()[0]` of an already-stripped non-empty string. -/
def firstWord (s : String) : String :=
  String.mk ((s.data.dropWhile isWsp).takeWhile (fun c => !isWsp c))

/-- `template.rstrip("/")`. -/
def rstripSlash (l : List Char) : List Char :=
  (l.reverse.dropWhile (fun c => c == '/')).reverse

/-- `str.split(sep)` for a one-character separator. -/
def splitCh (sep : Char) : List Char → List (List Char)
  | [] => [[]]
  | c :: r =>
    match splitCh sep r with
    | [] => [[]]
    | g :: gs => if c == sep then [] :: g :: gs else (c :: g) :: gs

/-- `template.rstrip("/").split("/")[-1]`. -/
def lastSeg (t : String) : String :=
  String.mk ((splitCh '/' (rstripSlash t.data)).getLastD [])

/-- The probe list of method 3 (lines 290-298). -/
def probeList (template : JVal) : List String :=
  ["../pythonic-template", "~/pythonic-template"] ++
    (match template with
     | .jstr t =>
       if isPre "https://github.com".data t.data then
         (let rn := lastSeg t
          if rn = "" then [] else ["~/" ++ rn])
       else []
     | _ => [])

/-- The probe loop (lines 299-305): first probe with a `.git` directory and a
truthy `rev-parse` wins. -/
def probeLoop (env : CruftEnv) : List String → Option String → Option String
  | [], k => k
  | p :: ps, k =>
    if env.gitEx p then
      match env.revParse p with
      | some s => if !(s == "") then some s else probeLoop env ps k
      | none => probeLoop env ps k
    else probeLoop env ps k

/-- Method 1 (lines 276-280): local template path.  `Path(template)` on a
truthy non-string raises `TypeError`. -/
def stageLocal (env : CruftEnv) (template : JVal) (k : Option String) :
    Except PyExc (Option String) :=
  if truthyOpt k then .ok k
  else if jTruthy template then
    match template with
    | .jstr t => .ok (if env.pathEx t && env.gitEx t then env.revParse t else k)
    | _ => .error .typeError
  else .ok k

/-- Method 2 (lines 282-287): `git ls-remote` on a remote URL. -/
def stageRemote (env : CruftEnv) (template : JVal) (k : Option String) : Option String :=
  if truthyOpt k then k
  else
    match template with
    | .jstr t =>
      if isRemoteUrl t then
        match env.lsRemote t with
        | some out => if !(out == "") then some (firstWord out) else k
        | none => k
      else k
    | _ => k

/-- Method 3 (lines 289-305): filesystem probing. -/
def stageProbe (env : CruftEnv) (template : JVal) (k : Option String) : Option String :=
  if truthyOpt k then k else probeLoop env (probeList template) k

/-- `basis` of the synthetic fallback (line 309). -/
def basisOf (template : JVal) : String :=
  match template with
  | .jstr t => if t == "" then "pythonic-template" else t
  | _ => "pythonic-template"

/-- The whole commit resolution of `setup_cruft_tracking` (lines 265-311):
environment variables, local path, remote, probes, synthetic hash. -/
def resolveCommit (env : CruftEnv) (template : JVal) : Except PyExc String :=
  match stageLocal env template (envPick env) with
  | .error e => .error e
  | .ok k1 =>
    match stageProbe env template (stageRemote env template k1) with
    | some s => .ok (if s == "" then sha1hex (basisOf template) else s)
    | none => .ok (sha1hex (basisOf template))

/-- `setup_cruft_tracking` (lines 249-319).  `absent`: no `.cruft.json`
(line 252); `readError` / `badJson`: `OSError` / `JSONDecodeError` caught at
line 318; non-object JSON: `data.get` raises `AttributeError` (uncaught); a
truthy non-sliceable commit: `data["commit"][:8]` raises `TypeError`
(uncaught). -/
def setup_cruft_tracking (env : CruftEnv) (file : CruftFile) : CruftResult :=
  match file with
  | .absent => ⟨none, none⟩
  | .readError => ⟨none, none⟩
  | .badJson => ⟨none, none⟩
  | .content v =>
    match v with
    | .jobj fs =>
      if jTruthy ((objGet fs "commit").getD .jnull) then
        if sliceable ((objGet fs "commit").getD .jnull) then ⟨none, none⟩
        else ⟨some .typeError, none⟩
      else
        match resolveCommit env ((objGet fs "template").getD (.jstr "")) with
        | .error e => ⟨some e, none⟩
        | .ok c =>
          if env.writeOk then ⟨none, some (.jobj (setField fs "commit" (.jstr c)))⟩
          else ⟨none, none⟩
    | _ => ⟨some .attributeError, none⟩

/-- A do-nothing environment for witnesses: no env vars, no paths, no git. -/
def cruftEnvNone : CruftEnv :=
  ⟨fun _ => none, fun _ => false, fun _ => false, fun _ => none, fun _ => none, true⟩

/-- **C2.** When `.cruft.json` already carries a non-null, non-empty `commit`
string, `setup_cruft_tracking` returns at line 263 without touching the file:
no write and no exception, whatever the external world does. -/
theorem cruft_commit_idempotent (env : CruftEnv) (fs : List (String × JVal)) (c : String)
    (hc : objGet fs "commit" = some (.jstr c)) (hne : c ≠ "") :
    setup_cruft_tracking env (.content (.jobj fs)) = ⟨none, none⟩ := by
  simp only [setup_cruft_tracking]
  rw [hc]
  simp only [Option.getD_some]
  rw [if_pos (by simp [jTruthy, hne])]
  rfl

/-- Witness for **C2**: a second run on a populated `.cruft.json` changes
nothing. -/
theorem cruft_commit_idempotent_witness :
    setup_cruft_tracking cruftEnvNone
      (.content (.jobj [("template", .jstr "T"), ("commit", .jstr "abc")])) =
      ⟨none, none⟩ :=
  cruft_commit_idempotent cruftEnvNone _ "abc" rfl (by decide)

/-- **C6 counterexample.** On `.cruft.json` holding the JSON array `[]`,
`data.get("commit")` at line 261 raises an uncaught `AttributeError` —
contradicting the claim that `setup_cruft_tracking` never raises for
non-object JSON contents. -/
theorem cruft_raises_on_list_cex :
    (setup_cruft_tracking cruftEnvNone (.content (.jarr []))).exc =
      some PyExc.attributeError := rfl

/-- The commit field (if truthy) supports the `[:8]` slice at line 262. -/
def CommitFieldOk (fs : List (String × JVal)) : Prop :=
  jTruthy ((objGet fs "commit").getD .jnull) = true →
    sliceable ((objGet fs "commit").getD .jnull) = true

/-- The template field is a string, or falsy (so `Path(template)` at line 277
is never called on a non-string). -/
def TemplateFieldOk (fs : List (String × JVal)) : Prop :=
  (∃ t, (objGet fs "template").getD (.jstr "") = .jstr t) ∨
    jTruthy ((objGet fs "template").getD (.jstr "")) = false

theorem resolveCommit_ok (env : CruftEnv) (template : JVal)
    (h : (∃ t, template = .jstr t) ∨ jTruthy template = false) :
    ∃ c, resolveCommit env template = .ok c := by
  unfold resolveCommit
  have hloc : ∃ k1, stageLocal env template (envPick env) = .ok k1 := by
    unfold stageLocal
    by_cases h1 : truthyOpt (envPick env) = true
    · rw [if_pos h1]; exact ⟨_, rfl⟩
    · rw [if_neg h1]
      by_cases h2 : jTruthy template = true
      · rw [if_pos h2]
        rcases h with ⟨t, ht⟩ | hf
        · rw [ht]; exact ⟨_, rfl⟩
        · rw [hf] at h2; cases h2
      · rw [if_neg h2]; exact ⟨_, rfl⟩
  obtain ⟨k1, hk1⟩ := hloc
  rw [hk1]
  dsimp only
  cases hsp : stageProbe env template (stageRemote env template k1) with
  | some s => exact ⟨_, rfl⟩
  | none => exact ⟨_, rfl⟩

/-- **C6 amended.** `setup_cruft_tracking` raises no exception whenever the
file is absent, unreadable, or malformed JSON, or parses to a JSON *object*
whose `commit` value (if truthy) is sliceable and whose `template` value is a
string or falsy — for every outcome of the external commands.  (Non-object
JSON raises `AttributeError`; a truthy non-sliceable commit or a truthy
non-string template raise `TypeError`.) -/
theorem cruft_no_raise_amended (env : CruftEnv) (file : CruftFile)
    (h : ∀ v, file = .content v →
      ∃ fs, v = .jobj fs ∧ CommitFieldOk fs ∧ TemplateFieldOk fs) :
    (setup_cruft_tracking env file).exc = none := by
  cases file with
  | absent => rfl
  | readError => rfl
  | badJson => rfl
  | content v =>
    obtain ⟨fs, hv, hcom, htem⟩ := h v rfl
    subst hv
    simp only [setup_cruft_tracking]
    by_cases h1 : jTruthy ((objGet fs "commit").getD .jnull) = true
    · rw [if_pos h1, if_pos (hcom h1)]
    · rw [if_neg h1]
      obtain ⟨c, hc⟩ := resolveCommit_ok env _ htem
      rw [hc]
      dsimp only
      split <;> rfl

/-- Witness for **C6 amended**: the freshly generated `.cruft.json` (object
with null commit) never raises. -/
theorem cruft_no_raise_amended_witness :
    (setup_cruft_tracking cruftEnvNone
      (.content (.jobj [("template", .jstr "T"), ("commit", .jnull)]))).exc = none :=
  cruft_no_raise_amended cruftEnvNone _ (fun v hv => by
    cases hv
    exact ⟨[("template", .jstr "T"), ("commit", .jnull)], rfl,
      fun h => by simpa [objGet, jTruthy] using h,
      Or.inl ⟨"T", rfl⟩⟩)

/-- **C9.** Commit resolution is side-effect-free on failure: when
`.cruft.json` is missing, unreadable, unparseable, or already has its commit
set, nothing is written; and whenever the procedure raises, nothing has been
written.  (`written` is the unique write of the procedure, so "at most one
write" is structural: a run produces at most one `written` value.) -/
theorem cruft_atomic (env : CruftEnv) :
    ((setup_cruft_tracking env .absent).written = none) ∧
    ((setup_cruft_tracking env .readError).written = none) ∧
    ((setup_cruft_tracking env .badJson).written = none) ∧
    (∀ fs c, objGet fs "commit" = some (.jstr c) → c ≠ "" →
      (setup_cruft_tracking env (.content (.jobj fs))).written = none) ∧
    (∀ file, (setup_cruft_tracking env file).exc ≠ none →
      (setup_cruft_tracking env file).written = none) := by
  refine ⟨rfl, rfl, rfl, ?_, ?_⟩
  · intro fs c hc hne
    simp only [setup_cruft_tracking]
    rw [hc]
    simp only [Option.getD_some]
    rw [if_pos (by simp [jTruthy, hne])]
    rfl
  · intro file hexc
    cases file with
    | absent => rfl
    | readError => rfl
    | badJson => rfl
    | content v =>
      cases v with
      | jobj fs =>
        simp only [setup_cruft_tracking] at hexc ⊢
        by_cases h1 : jTruthy ((objGet fs "commit").getD .jnull) = true
        · rw [if_pos h1] at hexc ⊢
          by_cases h2 : sliceable ((objGet fs "commit").getD .jnull) = true
          · rw [if_pos h2] at hexc
            exact absurd rfl hexc
          · rw [if_neg h2]
        · rw [if_neg h1] at hexc ⊢
          cases hres : resolveCommit env ((objGet fs "template").getD (.jstr "")) with
          | error e => rfl
          | ok c =>
            rw [hres] at hexc
            dsimp only at hexc ⊢
            by_cases hw : env.writeOk = true
            · rw [if_pos hw] at hexc
              exact absurd rfl hexc
            · rw [if_neg hw]
      | jnull => rfl
      | jbool b => rfl
      | jnum n => rfl
      | jstr s => rfl
      | jarr xs => rfl

/-- Witness for **C9**: a commit already set means no write. -/
theorem cruft_atomic_witness :
    (setup_cruft_tracking cruftEnvNone
      (.content (.jobj [("commit", .jstr "deadbeef")]))).written = none :=
  (cruft_atomic cruftEnvNone).2.2.2.1 [("commit", .jstr "deadbeef")] "deadbeef" rfl
    (by decide)

/-- An environment whose `git rev-parse` answers a non-hex string (any
stdout is possible for "every outcome of the external lookups"). -/
def cruftEnvBadGit : CruftEnv :=
  ⟨fun _ => none, fun _ => true, fun _ => true, fun _ => some "abc", fun _ => none, true⟩

/-- **C1 counterexample.** With no env override, a local template path with a
`.git` directory, and `git rev-parse HEAD` printing `abc`, the hook writes
`"abc"` — not a 40-character hex string — into the `commit` field: the
outputs of `git rev-parse` / `git ls-remote` are stored unvalidated
(lines 278 and 286), so the claim fails for such outcomes. -/
theorem cruft_commit_not_hex_cex :
    (setup_cruft_tracking cruftEnvBadGit
      (.content (.jobj [("template", .jstr "/tmp/tpl"), ("commit", .jnull)]))).written =
      some (.jobj [("template", .jstr "/tmp/tpl"), ("commit", .jstr "abc")]) ∧
    hex40 "abc" = false :=
  ⟨rfl, rfl⟩

/-- Every `some` value of a `known_commit` candidate is empty or 40-hex. -/
def OptHex (k : Option String) : Prop := ∀ s, k = some s → s = "" ∨ hex40 s = true

/-- The well-behavedness of real `git`: `rev-parse HEAD` and the first field
of `ls-remote` output are 40-hex (the hypothesis the code leaves implicit by
not validating them). -/
def GitOutputsHex (env : CruftEnv) : Prop :=
  (∀ p s, env.revParse p = some s → s = "" ∨ hex40 s = true) ∧
  (∀ t s, env.lsRemote t = some s → s = "" ∨ hex40 (firstWord s) = true)

theorem tryEnvVar_hex {env : CruftEnv} {n s : String} (h : tryEnvVar env n = some s) :
    hex40 s = true := by
  unfold tryEnvVar at h
  cases hv : env.envCommit n with
  | none => rw [hv] at h; cases h
  | some v =>
    rw [hv] at h
    dsimp only at h
    split at h
    next hg =>
      cases h
      simp only [Bool.and_eq_true] at hg
      exact hg.2
    next => cases h

theorem envPick_hex {env : CruftEnv} {s : String} (h : envPick env = some s) :
    hex40 s = true := by
  unfold envPick at h
  cases h1 : tryEnvVar env "COOKIECUTTER_TEMPLATE_COMMIT" with
  | some v =>
    rw [h1] at h
    cases h
    exact tryEnvVar_hex h1
  | none =>
    rw [h1] at h
    exact tryEnvVar_hex h

theorem envPick_optHex (env : CruftEnv) : OptHex (envPick env) := by
  intro s hs
  exact Or.inr (envPick_hex hs)

theorem stageLocal_optHex {env : CruftEnv} {template : JVal} {k k1 : Option String}
    (hgit : GitOutputsHex env) (hk : OptHex k)
    (h : stageLocal env template k = .ok k1) : OptHex k1 := by
  unfold stageLocal at h
  by_cases h1 : truthyOpt k = true
  · rw [if_pos h1] at h
    cases h
    exact hk
  · rw [if_neg h1] at h
    by_cases h2 : jTruthy template = true
    · rw [if_pos h2] at h
      cases template with
      | jstr t =>
        dsimp only at h
        cases h
        intro s hs
        by_cases h3 : (env.pathEx t && env.gitEx t) = true
        · rw [if_pos h3] at hs
          exact hgit.1 t s hs
        · rw [if_neg h3] at hs
          exact hk s hs
      | jnull => cases h
      | jbool b => cases h
      | jnum n => cases h
      | jarr xs => cases h
      | jobj fs => cases h
    · rw [if_neg h2] at h
      cases h
      exact hk

theorem stageRemote_optHex {env : CruftEnv} {template : JVal} {k : Option String}
    (hgit : GitOutputsHex env) (hk : OptHex k) :
    OptHex (stageRemote env template k) := by
  unfold stageRemote
  by_cases h1 : truthyOpt k = true
  · rw [if_pos h1]; exact hk
  · rw [if_neg h1]
    cases template with
    | jstr t =>
      dsimp only
      by_cases h2 : isRemoteUrl t = true
      · rw [if_pos h2]
        cases hout : env.lsRemote t with
        | some out =>
          dsimp only
          by_cases h3 : (!(out == "")) = true
          · rw [if_pos h3]
            intro s hs
            injection hs with hs1
            subst hs1
            rcases hgit.2 t out hout with h4 | h4
            · exfalso
              rw [h4] at h3
              simp at h3
            · exact Or.inr h4
          · rw [if_neg h3]; exact hk
        | none => exact hk
      · rw [if_neg h2]; exact hk
    | jnull => exact hk
    | jbool b => exact hk
    | jnum n => exact hk
    | jarr xs => exact hk
    | jobj fs => exact hk

theorem probeLoop_optHex {env : CruftEnv} (hgit : GitOutputsHex env) :
    ∀ (probes : List String) {k : Option String}, OptHex k →
      OptHex (probeLoop env probes k) := by
  intro probes
  induction probes with
  | nil => intro k hk; exact hk
  | cons p ps ih =>
    intro k hk
    unfold probeLoop
    split
    · cases hrp : env.revParse p with
      | some s =>
        dsimp only
        split
        · intro x hx
          injection hx with hx1
          subst hx1
          exact hgit.1 p s hrp
        · exact ih hk
      | none => exact ih hk
    · exact ih hk

theorem stageProbe_optHex {env : CruftEnv} {template : JVal} {k : Option String}
    (hgit : GitOutputsHex env) (hk : OptHex k) :
    OptHex (stageProbe env template k) := by
  unfold stageProbe
  split
  · exact hk
  · exact probeLoop_optHex hgit (probeList template) hk

theorem resolveCommit_hex {env : CruftEnv} {template : JVal} {c : String}
    (hgit : GitOutputsHex env) (hres : resolveCommit env template = .ok c) :
    hex40 c = true := by
  unfold resolveCommit at hres
  cases hloc : stageLocal env template (envPick env) with
  | error e => rw [hloc] at hres; cases hres
  | ok k1 =>
    rw [hloc] at hres
    dsimp only at hres
    have hk3 : OptHex (stageProbe env template (stageRemote env template k1)) :=
      stageProbe_optHex hgit
        (stageRemote_optHex hgit (stageLocal_optHex hgit (envPick_optHex env) hloc))
    cases hsp : stageProbe env template (stageRemote env template k1) with
    | some s =>
      rw [hsp] at hres
      dsimp only at hres
      by_cases hs : (s == "") = true
      · rw [if_pos hs] at hres
        cases hres
        exact hex40_sha1hex _
      · rw [if_neg hs] at hres
        cases hres
        rcases hk3 c hsp with h | h
        · rw [h] at hs
          exact absurd rfl hs
        · exact h
    | none =>
      rw [hsp] at hres
      cases hres
      exact hex40_sha1hex _

theorem objGet_setField (fs : List (String × JVal)) (k : String) (v : JVal) :
    objGet (setField fs k v) k = some v := by
  induction fs with
  | nil => simp [setField, objGet]
  | cons p fs ih =>
    obtain ⟨k', v'⟩ := p
    unfold setField
    by_cases hk : k' = k
    · rw [if_pos hk]
      simp [objGet]
    · rw [if_neg hk]
      unfold objGet
      rw [if_neg hk]
      exact ih

/-- **C1 amended.** Provided the outputs of `git rev-parse` / `git ls-remote`
are themselves empty-or-40-hex (which real `git` guarantees but the code
does not check), every commit value that `setup_cruft_tracking` writes into
the `commit` field is a 40-character lowercase hex string — for every initial
`.cruft.json` content and every outcome of the other lookups; the env-var
strategy and the synthetic SHA-1 fallback need no such assumption. -/
theorem cruft_commit_hex_amended (env : CruftEnv) (file : CruftFile)
    (hgit : GitOutputsHex env) :
    ∀ fs, (setup_cruft_tracking env file).written = some (.jobj fs) →
      ∃ c, objGet fs "commit" = some (.jstr c) ∧ hex40 c = true := by
  intro fs hw
  cases file with
  | absent => cases hw
  | readError => cases hw
  | badJson => cases hw
  | content v =>
    cases v with
    | jobj fs0 =>
      simp only [setup_cruft_tracking] at hw
      by_cases h1 : jTruthy ((objGet fs0 "commit").getD .jnull) = true
      · rw [if_pos h1] at hw
        by_cases h2 : sliceable ((objGet fs0 "commit").getD .jnull) = true
        · rw [if_pos h2] at hw; cases hw
        · rw [if_neg h2] at hw; cases hw
      · rw [if_neg h1] at hw
        cases hres : resolveCommit env ((objGet fs0 "template").getD (.jstr "")) with
        | error e => rw [hres] at hw; cases hw
        | ok c =>
          rw [hres] at hw
          dsimp only at hw
          by_cases hwr : env.writeOk = true
          · rw [if_pos hwr] at hw
            injection hw with hw1
            injection hw1 with hw2
            refine ⟨c, ?_, resolveCommit_hex hgit hres⟩
            rw [← hw2]
            exact objGet_setField fs0 "commit" (.jstr c)
          · rw [if_neg hwr] at hw; cases hw
    | jnull => cases hw
    | jbool b => cases hw
    | jnum n => cases hw
    | jstr s => cases hw
    | jarr xs => cases hw

/-- Witness for **C1 amended**: with no working lookup at all, the written
commit is the synthetic SHA-1, and it is 40-hex. -/
theorem cruft_commit_hex_amended_witness : hex40 (sha1hex "pythonic-template") = true := by
  obtain ⟨c, hc, hx⟩ := cruft_commit_hex_amended cruftEnvNone (.content (.jobj []))
    ⟨(fun p s h => nomatch h), (fun t s h => nomatch h)⟩
    [("commit", .jstr (sha1hex "pythonic-template"))] rfl
  have h4 : some (JVal.jstr (sha1hex "pythonic-template")) = some (JVal.jstr c) := by
    rw [← hc]
    rfl
  injection h4 with h5
  injection h5 with h6
  rw [← h6] at hx
  exact hx

theorem tryEnvVar_some_ne {env : CruftEnv} {n s : String}
    (h : tryEnvVar env n = some s) : s ≠ "" := by
  unfold tryEnvVar at h
  cases hv : env.envCommit n with
  | none => rw [hv] at h; cases h
  | some v =>
    rw [hv] at h
    dsimp only at h
    split at h
    next hg =>
      cases h
      intro he
      subst he
      simp at hg
    next => cases h

theorem stageLocal_of_truthy {env : CruftEnv} {template : JVal} {k : Option String}
    (h : truthyOpt k = true) : stageLocal env template k = .ok k := by
  unfold stageLocal
  rw [if_pos h]

theorem stageRemote_of_truthy {env : CruftEnv} {template : JVal} {k : Option String}
    (h : truthyOpt k = true) : stageRemote env template k = k := by
  unfold stageRemote
  rw [if_pos h]

theorem stageProbe_of_truthy {env : CruftEnv} {template : JVal} {k : Option String}
    (h : truthyOpt k = true) : stageProbe env template k = k := by
  unfold stageProbe
  rw [if_pos h]

theorem resolveCommit_of_truthy {env : CruftEnv} {template : JVal} {s : String}
    (h1 : stageLocal env template (envPick env) = .ok (some s)) (hs : s ≠ "") :
    resolveCommit env template = .ok s := by
  have ht : truthyOpt (some s) = true := by simp [truthyOpt, hs]
  unfold resolveCommit
  rw [h1]
  dsimp only
  rw [stageRemote_of_truthy ht, stageProbe_of_truthy ht]
  dsimp only
  rw [if_neg (by simp [hs])]

theorem resolveCommit_synthetic {env : CruftEnv} {template : JVal} {k1 : Option String}
    (h1 : stageLocal env template (envPick env) = .ok k1)
    (h2 : truthyOpt (stageProbe env template (stageRemote env template k1)) = false) :
    resolveCommit env template = .ok (sha1hex (basisOf template)) := by
  unfold resolveCommit
  rw [h1]
  dsimp only
  cases hsp : stageProbe env template (stageRemote env template k1) with
  | none => rfl
  | some s =>
    rw [hsp] at h2
    dsimp only
    unfold truthyOpt at h2
    dsimp only at h2
    have h3 : (s == "") = true := by
      cases hb : (s == "") with
      | true => rfl
      | false => rw [hb] at h2; simp at h2
    rw [if_pos h3]

/-- **C5.** The commit is resolved through the fallback strategies in exactly
the order: `COOKIECUTTER_TEMPLATE_COMMIT`, `GITHUB_SHA`, local template
path, remote `git ls-remote`, filesystem probing, synthetic hash — the first
strategy that yields a truthy value wins; and the synthetic fallback is a
deterministic function of the template (the same template yields the same
resolved commit in any two all-failing environments). -/
theorem cruft_strategy_order_spec (env : CruftEnv) (template : JVal) :
    (∀ s, tryEnvVar env "COOKIECUTTER_TEMPLATE_COMMIT" = some s →
      resolveCommit env template = .ok s) ∧
    (tryEnvVar env "COOKIECUTTER_TEMPLATE_COMMIT" = none →
      ∀ s, tryEnvVar env "GITHUB_SHA" = some s → resolveCommit env template = .ok s) ∧
    (envPick env = none → ∀ t s, template = .jstr t → t ≠ "" →
      (env.pathEx t && env.gitEx t) = true → env.revParse t = some s → s ≠ "" →
      resolveCommit env template = .ok s) ∧
    (∀ k1, stageLocal env template (envPick env) = .ok k1 → truthyOpt k1 = false →
      ∀ t out, template = .jstr t → isRemoteUrl t = true →
      env.lsRemote t = some out → out ≠ "" → firstWord out ≠ "" →
      resolveCommit env template = .ok (firstWord out)) ∧
    (∀ k1 s, stageLocal env template (envPick env) = .ok k1 →
      stageProbe env template (stageRemote env template k1) = some s → s ≠ "" →
      resolveCommit env template = .ok s) ∧
    (∀ k1, stageLocal env template (envPick env) = .ok k1 →
      truthyOpt (stageProbe env template (stageRemote env template k1)) = false →
      resolveCommit env template = .ok (sha1hex (basisOf template))) ∧
    (∀ (env2 : CruftEnv) (k1 k2 : Option String),
      stageLocal env template (envPick env) = .ok k1 →
      truthyOpt (stageProbe env template (stageRemote env template k1)) = false →
      stageLocal env2 template (envPick env2) = .ok k2 →
      truthyOpt (stageProbe env2 template (stageRemote env2 template k2)) = false →
      resolveCommit env template = resolveCommit env2 template) := by
  refine ⟨?_, ?_, ?_, ?_, ?_, ?_, ?_⟩
  · intro s hctc
    have hp : envPick env = some s := by unfold envPick; rw [hctc]
    have hs := tryEnvVar_some_ne hctc
    exact resolveCommit_of_truthy
      (by rw [hp]; exact stageLocal_of_truthy (by simp [truthyOpt, hs])) hs
  · intro hctc s hgh
    have hp : envPick env = some s := by unfold envPick; rw [hctc]; exact hgh
    have hs := tryEnvVar_some_ne hgh
    exact resolveCommit_of_truthy
      (by rw [hp]; exact stageLocal_of_truthy (by simp [truthyOpt, hs])) hs
  · intro hp t s ht htne hgit hrev hs
    subst ht
    refine resolveCommit_of_truthy ?_ hs
    rw [hp]
    unfold stageLocal
    rw [if_neg (by simp [truthyOpt])]
    rw [if_pos (by simp [jTruthy, htne])]
    dsimp only
    rw [if_pos hgit, hrev]
  · intro k1 hk1 hk1f t out ht hurl hlsr houtne hfwne
    subst ht
    unfold resolveCommit
    rw [hk1]
    dsimp only
    have hsr : stageRemote env (.jstr t) k1 = some (firstWord out) := by
      unfold stageRemote
      rw [if_neg (by simp [hk1f])]
      dsimp only
      rw [if_pos hurl, hlsr]
      dsimp only
      rw [if_pos (by simp [houtne])]
    rw [hsr, stageProbe_of_truthy (by simp [truthyOpt, hfwne])]
    dsimp only
    rw [if_neg (by simp [hfwne])]
  · intro k1 s hk1 hsp hs
    unfold resolveCommit
    rw [hk1]
    dsimp only
    rw [hsp]
    dsimp only
    rw [if_neg (by simp [hs])]
  · intro k1 hk1 hk3
    exact resolveCommit_synthetic hk1 hk3
  · intro env2 k1 k2 hk1 hk3 hk1b hk3b
    rw [resolveCommit_synthetic hk1 hk3, resolveCommit_synthetic hk1b hk3b]

/-- Witness for **C5**: in an environment where every strategy fails, the
result is the deterministic synthetic hash of the template string. -/
theorem cruft_strategy_order_spec_witness :
    resolveCommit cruftEnvNone (.jstr "x") =
      .ok (sha1hex (basisOf (.jstr "x"))) :=
  (cruft_strategy_order_spec cruftEnvNone (.jstr "x")).2.2.2.2.2.1 none rfl rfl

/-! ## `setup_python_versions` as a filesystem procedure (lines 208-233)

The loop over `target_files`: a missing file is skipped; `read_text` and
`write_text` raise `OSError` with **no** enclosing `try` in
`setup_python_versions` or `main`, so a raise aborts the hook
(`Except.error`); a file is written only when the token substitution changed
its content. -/

/-- The fixed list of target files (lines 208-217). -/
def target_files : List String :=
  [".github/workflows/ci.yml", ".github/workflows/docs.yml",
   ".github/workflows/publish.yml", ".github/workflows/render-paper.yml",
   "README.md", "pyproject.toml", "docs/development/changelog.md",
   "docs/development/contributing.md"]

structure TokenFsEnv where
  fileEx : String → Bool
  readRes : String → Option (List Char)
  writeOk : String → Bool

/-- The write loop of `setup_python_versions`; the result is the list of
successful writes, or `Except.error` when a read or write raised. -/
def setup_python_versions_run (env : TokenFsEnv) (lo hi : Int) (y m d : Nat) :
    Except Unit (List (String × List Char)) :=
  target_files.foldlM
    (fun acc f =>
      if env.fileEx f then
        match env.readRes f with
        | none => Except.error ()
        | some content =>
          let c2 := applyTokens (tokenPairs lo hi y m d) content
          if c2 = content then Except.ok acc
          else if env.writeOk f then Except.ok (acc ++ [(f, c2)]) else Except.error ()
      else Except.ok acc)
    []

/-- A filesystem in which the first target file exists, reads fine, contains
a token, and cannot be written. -/
def tokenFsEnvBad : TokenFsEnv :=
  ⟨fun f => f == ".github/workflows/ci.yml",
   fun f => if f == ".github/workflows/ci.yml" then some "__PY_MAX__".data else none,
   fun _ => false⟩

/-- **C8 counterexample.** A failing `write_text` on a token-substitution
target file propagates out of `setup_python_versions` (and hence out of the
hook) as an uncaught `OSError`, instead of being logged and swallowed: the
read succeeded, the content changed, the write failed, and the run errors. -/
theorem token_write_failure_raises_cex :
    setup_python_versions_run tokenFsEnvBad 12 12 2026 1 2 = Except.error () ∧
    tokenFsEnvBad.writeOk ".github/workflows/ci.yml" = false ∧
    tokenFsEnvBad.readRes ".github/workflows/ci.yml" = some "__PY_MAX__".data := by
  refine ⟨?_, rfl, rfl⟩
  rfl

/-- `env` with its cruft write outcome replaced. -/
def setWriteOk (env : CruftEnv) (b : Bool) : CruftEnv := { env with writeOk := b }

theorem exc_of_write_if (c : Prop) [Decidable c] (w : Option JVal) :
    (if c then CruftResult.mk none w else ⟨none, none⟩).exc = none := by
  split <;> rfl

theorem probeLoop_setWriteOk (env : CruftEnv) (b : Bool) (ps : List String)
    (k : Option String) : probeLoop (setWriteOk env b) ps k = probeLoop env ps k := by
  induction ps with
  | nil => rfl
  | cons p ps ih =>
    simp only [probeLoop]
    rw [show (setWriteOk env b).gitEx = env.gitEx from rfl,
        show (setWriteOk env b).revParse = env.revParse from rfl, ih]

theorem resolveCommit_setWriteOk (env : CruftEnv) (b : Bool) (template : JVal) :
    resolveCommit (setWriteOk env b) template = resolveCommit env template := by
  unfold resolveCommit
  rw [show stageLocal (setWriteOk env b) template (envPick (setWriteOk env b)) =
      stageLocal env template (envPick env) from rfl]
  cases h : stageLocal env template (envPick env) with
  | error e => rfl
  | ok k1 =>
    dsimp only
    rw [show stageRemote (setWriteOk env b) template k1 =
        stageRemote env template k1 from rfl]
    unfold stageProbe
    rw [show truthyOpt (stageRemote env template k1) = truthyOpt (stageRemote env template k1)
        from rfl]
    by_cases ht : truthyOpt (stageRemote env template k1) = true
    · rw [if_pos ht, if_pos ht]
    · rw [if_neg ht, if_neg ht, probeLoop_setWriteOk]

/-- **C8 amended.** External command and network-call failures degrade
rather than raise: whether the `.cruft.json` write succeeds or fails never
changes whether `setup_cruft_tracking` raises (a failed write is caught at
line 318 and logged), and the version-discovery chain returns a (non-empty)
list for every combination of source failures.  However — per the
counterexample — a read or write failure on a token-substitution target file
does propagate out of `setup_python_versions`. -/
theorem hook_failure_containment :
    (∀ (env : CruftEnv) (b : Bool) (file : CruftFile),
      (setup_cruft_tracking (setWriteOk env b) file).exc =
        (setup_cruft_tracking env file).exc) ∧
    (∀ denv : DiscoverEnv, discover_python_versions denv ≠ []) := by
  constructor
  · intro env b file
    cases file with
    | absent => rfl
    | readError => rfl
    | badJson => rfl
    | content v =>
      cases v with
      | jobj fs =>
        simp only [setup_cruft_tracking]
        rw [resolveCommit_setWriteOk]
        by_cases h1 : jTruthy ((objGet fs "commit").getD .jnull) = true
        · rw [if_pos h1, if_pos h1]
        · rw [if_neg h1, if_neg h1]
          cases hr : resolveCommit env ((objGet fs "template").getD (.jstr "")) with
          | error e => rfl
          | ok c =>
            dsimp only
            rw [exc_of_write_if, exc_of_write_if]
      | jnull => rfl
      | jbool b2 => rfl
      | jnum n => rfl
      | jstr s => rfl
      | jarr xs => rfl
  · intro denv
    exact goodVers_ne_nil (discover_python_versions_good denv)

/-! ## The two `parse_requires_python` implementations (C10)

`re.search(r">=?\s*3\.(\d+)", spec)` / `re.search(r"<\s*3\.(\d+)", spec)`,
implemented as a leftmost-match scan.  Consuming the optional `=` greedily is
faithful: `=` can never begin `\s*3\.`, so no backtracking is observable;
likewise `\s*` is maximal-munch because `3` is not whitespace. -/

/-- Try `>=?\s*3\.(\d+)` at the head of the list; return the `int` group. -/
def matchGe (l : List Char) : Option Nat :=
  match l with
  | '>' :: r =>
    let r1 := match r with
      | '=' :: rr => rr
      | _ => r
    match r1.dropWhile isWsp with
    | '3' :: '.' :: r3 =>
      if (takeDigits r3).1 = [] then none else some (chars2Nat (takeDigits r3).1)
    | _ => none
  | _ => none

/-- `re.search` of the lower-bound pattern: leftmost match. -/
def searchGe : List Char → Option Nat
  | [] => none
  | c :: r =>
    match matchGe (c :: r) with
    | some n => some n
    | none => searchGe r

/-- Try `<\s*3\.(\d+)` at the head of the list. -/
def matchLt (l : List Char) : Option Nat :=
  match l with
  | '<' :: r =>
    match r.dropWhile isWsp with
    | '3' :: '.' :: r3 =>
      if (takeDigits r3).1 = [] then none else some (chars2Nat (takeDigits r3).1)
    | _ => none
  | _ => none

/-- `re.search` of the upper-bound pattern. -/
def searchLt : List Char → Option Nat
  | [] => none
  | c :: r =>
    match matchLt (c :: r) with
    | some n => some n
    | none => searchLt r

/-- `f"3.{i}"`. -/
def mkVer (i : Int) : String := String.mk (mkVerL i)

/-- The hook's local fallback `parse_requires_python`
(post_gen_project.py lines 180-185): default minor 12. -/
def hookParse (spec : List Char) : String × String :=
  let lo : Int := match searchGe spec with
    | some n => (n : Int)
    | none => 12
  let hi : Int := match searchLt spec with
    | some m => (m : Int) - 1
    | none => lo
  (mkVer lo, mkVer hi)

/-- The shared-library `parse_requires_python`
(scripts/lib/python_versions.py lines 15-26): default minor 10. -/
def libParse (spec : List Char) : String × String :=
  let lo : Int := match searchGe spec with
    | some n => (n : Int)
    | none => 10
  let hi : Int := match searchLt spec with
    | some m => (m : Int) - 1
    | none => lo
  (mkVer lo, mkVer hi)

/-- `f">=3.{n}"`, the spec string `setup_python_versions` actually passes. -/
def geSpec (n : Nat) : List Char := '>' :: '=' :: '3' :: '.' :: natChars n

/-- `f">=3.{n},<3.{m}"`, the optional upper-bound form. -/
def geLtSpec (n m : Nat) : List Char :=
  geSpec n ++ (',' :: '<' :: '3' :: '.' :: natChars m)

theorem matchGe_digits (d rest : List Char) (hd : ∀ c ∈ d, isDig c = true) (hne : d ≠ [])
    (hrest : rest = [] ∨ ∃ c r, rest = c :: r ∧ isDig c = false) :
    matchGe ('>' :: '=' :: '3' :: '.' :: (d ++ rest)) = some (chars2Nat d) := by
  have ht : takeDigits (d ++ rest) = (d, rest) := by
    rcases hrest with h | ⟨c, r, hcr, hc⟩
    · rw [h, List.append_nil]
      exact takeDigits_all_digits d hd
    · rw [hcr]
      exact takeDigits_append_stop d c r hd hc
  rw [show matchGe ('>' :: '=' :: '3' :: '.' :: (d ++ rest)) =
    (if (takeDigits (d ++ rest)).1 = [] then none
     else some (chars2Nat (takeDigits (d ++ rest)).1)) from rfl]
  rw [ht]
  exact if_neg hne

theorem matchLt_digits (d rest : List Char) (hd : ∀ c ∈ d, isDig c = true) (hne : d ≠ [])
    (hrest : rest = [] ∨ ∃ c r, rest = c :: r ∧ isDig c = false) :
    matchLt ('<' :: '3' :: '.' :: (d ++ rest)) = some (chars2Nat d) := by
  have ht : takeDigits (d ++ rest) = (d, rest) := by
    rcases hrest with h | ⟨c, r, hcr, hc⟩
    · rw [h, List.append_nil]
      exact takeDigits_all_digits d hd
    · rw [hcr]
      exact takeDigits_append_stop d c r hd hc
  rw [show matchLt ('<' :: '3' :: '.' :: (d ++ rest)) =
    (if (takeDigits (d ++ rest)).1 = [] then none
     else some (chars2Nat (takeDigits (d ++ rest)).1)) from rfl]
  rw [ht]
  exact if_neg hne

theorem matchLt_ne {c : Char} {r : List Char} (h : ¬ c = '<') : matchLt (c :: r) = none := by
  unfold matchLt
  split
  next heq =>
    injection heq with h1 _
    exact absurd h1 h
  next => rfl

theorem searchLt_no_lt {l : List Char} (h : ∀ c ∈ l, ¬ c = '<') : searchLt l = none := by
  induction l with
  | nil => rfl
  | cons c r ih =>
    rw [show searchLt (c :: r) =
      (match matchLt (c :: r) with
       | some n => some n
       | none => searchLt r) from rfl]
    rw [matchLt_ne (h c (by simp))]
    exact ih (fun x hx => h x (by simp [hx]))

theorem searchLt_found {l1 rest : List Char} (h1 : ∀ c ∈ l1, ¬ c = '<') {v : Nat}
    (hm : matchLt ('<' :: rest) = some v) :
    searchLt (l1 ++ '<' :: rest) = some v := by
  induction l1 with
  | nil =>
    simp only [List.nil_append]
    rw [show searchLt ('<' :: rest) =
      (match matchLt ('<' :: rest) with
       | some n => some n
       | none => searchLt rest) from rfl]
    rw [hm]
  | cons c l1t ih =>
    simp only [List.cons_append]
    rw [show searchLt (c :: (l1t ++ '<' :: rest)) =
      (match matchLt (c :: (l1t ++ '<' :: rest)) with
       | some n => some n
       | none => searchLt (l1t ++ '<' :: rest)) from rfl]
    rw [matchLt_ne (h1 c (by simp))]
    exact ih (fun x hx => h1 x (by simp [hx]))

theorem isDig_ne_lt {c : Char} (h : isDig c = true) : ¬ c = '<' := by
  intro he
  subst he
  simp [isDig] at h

theorem geSpec_no_lt (n : Nat) : ∀ c ∈ geSpec n, ¬ c = '<' := by
  intro c hc
  unfold geSpec at hc
  simp only [List.mem_cons] at hc
  rcases hc with h | h | h | h | h
  · subst h; decide
  · subst h; decide
  · subst h; decide
  · subst h; decide
  · exact isDig_ne_lt (natChars_all_dig n c h)

theorem searchGe_head {rest : List Char} {v : Nat} (hm : matchGe ('>' :: rest) = some v) :
    searchGe ('>' :: rest) = some v := by
  rw [show searchGe ('>' :: rest) =
    (match matchGe ('>' :: rest) with
     | some n => some n
     | none => searchGe rest) from rfl]
  rw [hm]

theorem searchGe_geSpec (n : Nat) : searchGe (geSpec n) = some n := by
  have h := matchGe_digits (natChars n) [] (natChars_all_dig n) (natChars_ne_nil n)
    (Or.inl rfl)
  rw [List.append_nil, chars2Nat_natChars] at h
  exact searchGe_head h

theorem geLtSpec_eq (n m : Nat) :
    geLtSpec n m = '>' :: '=' :: '3' :: '.' ::
      (natChars n ++ (',' :: '<' :: '3' :: '.' :: natChars m)) := by
  unfold geLtSpec geSpec
  simp

theorem searchGe_geLtSpec (n m : Nat) : searchGe (geLtSpec n m) = some n := by
  rw [geLtSpec_eq]
  have h := matchGe_digits (natChars n) (',' :: '<' :: '3' :: '.' :: natChars m)
    (natChars_all_dig n) (natChars_ne_nil n) (Or.inr ⟨',', _, rfl, by decide⟩)
  rw [chars2Nat_natChars] at h
  exact searchGe_head h

theorem searchLt_geLtSpec (n m : Nat) : searchLt (geLtSpec n m) = some m := by
  have heq : geLtSpec n m = (geSpec n ++ [',']) ++ '<' :: ('3' :: '.' :: natChars m) := by
    unfold geLtSpec
    simp
  rw [heq]
  refine searchLt_found ?_ ?_
  · intro c hc
    rcases List.mem_append.mp hc with h | h
    · exact geSpec_no_lt n c h
    · rw [List.mem_singleton.mp h]; decide
  · have h := matchLt_digits (natChars m) [] (natChars_all_dig m) (natChars_ne_nil m)
      (Or.inl rfl)
    rw [List.append_nil, chars2Nat_natChars] at h
    exact h

theorem searchLt_geSpec (n : Nat) : searchLt (geSpec n) = none :=
  searchLt_no_lt (geSpec_no_lt n)

/-- **C10.** On the hook's actual call domain — specs of the form `">=3.N"`,
optionally with an upper bound `",<3.M"` — the hook's local fallback
`parse_requires_python` and the shared-library implementation return the same
`(min, max)` pair; their defaults (3.12 versus 3.10) differ only on specs
with no `>=3.N` lower bound, as the last two conjuncts exhibit. -/
theorem parse_requires_python_agree (n m : Nat) :
    hookParse (geSpec n) = libParse (geSpec n) ∧
    hookParse (geLtSpec n m) = libParse (geLtSpec n m) ∧
    hookParse "x".data = ("3.12", "3.12") ∧
    libParse "x".data = ("3.10", "3.10") := by
  refine ⟨?_, ?_, by decide, by decide⟩
  · unfold hookParse libParse
    rw [searchGe_geSpec, searchLt_geSpec]
  · unfold hookParse libParse
    rw [searchGe_geLtSpec, searchLt_geLtSpec]
